import Mathlib

/-!
# Verification of tRead's pagination and layout engine

Shallow embedding of `src/tread/utils/text.py` and the page-navigation parts
of `src/tread/ui/state.py` / `src/tread/ui/controller.py`.

Modelling conventions:
* a Python `str` is a `List Char`; text is assumed ASCII (the source's regexes
  use ASCII-only classes for whitespace; `\w` is modelled as ASCII alphanumeric);
* Python `int` is `Int`;
* loops are modelled with explicit fuel; fuel exhaustion (`none`) corresponds to
  a non-terminating Python loop;
* `textwrap.wrap`'s `ValueError` for `width <= 0` is modelled as `none`.
-/

namespace TRead

/-- The characters of Python's `string.whitespace` / `textwrap._whitespace`
(`'\t\n\x0b\x0c\r '`); also the ASCII content of `str.strip()` and `\s`. -/
def isSpaceChar (c : Char) : Bool :=
  c = ' ' || c = '\t' || c = '\n' || c = '\x0b' || c = '\x0c' || c = '\r'

abbrev Line := List Char
abbrev TagName := List Char
abbrev Page := List Line

/-- `line.strip() == ''`. -/
def isBlankLine (l : Line) : Bool := l.all isSpaceChar

/-- A character matched by `[a-zA-Z0-9_]` in the tag regex of
`parse_markup_tags` (`text.py` line 18). -/
def isNameChar (c : Char) : Bool := c.isAlpha || c.isDigit || c = '_'

/-- A markup tag occurrence found by `re.finditer` in `parse_markup_tags`:
an opening or a closing tag, with the tag name the Python code extracts. -/
inductive MTag where
  | op (name : TagName)
  | cl (name : TagName)
deriving DecidableEq, Repr

/-- Deterministic match of the regex `\[/?([a-zA-Z0-9_]+(?:\s+[^]]*)?)\]`
against `'[' :: l`, given the optional `/` has been consumed (`isCl`) and
`l1` is the text after `[` (and `/`).  Returns the inner text
(`match.group(0)[1:-1]` resp. `[2:-1]`) and the remaining input.
Backtracking is resolved as the Python engine does: the name is the maximal
run of name characters, and the attribute alternative `\s+[^]]*` succeeds
exactly when a whitespace character follows the name and a `]` occurs later,
consuming up to the first `]`. -/
def headIsSpace : List Char → Bool
  | c :: _ => isSpaceChar c
  | [] => false

def tagBodyCore (isCl : Bool) (l1 : List Char) : Option (Bool × List Char × List Char) :=
  let nm := l1.takeWhile isNameChar
  let r0 := l1.dropWhile isNameChar
  if nm = [] then none
  else if r0.head? = some ']' then some (isCl, nm, r0.tail)
  else if headIsSpace r0 then
    let r1 := r0.dropWhile fun d => d != ']'
    if r1.head? = some ']' then
      some (isCl, nm ++ r0.takeWhile fun d => d != ']', r1.tail)
    else none
  else none

/-- Match the tag regex at a position whose `[` has just been consumed; a
leading `/` makes it a closing tag. -/
def matchTagBody (l : List Char) : Option (Bool × List Char × List Char) :=
  if l.head? = some '/' then tagBodyCore true l.tail else tagBodyCore false l

/-- Name pushed for an opening tag:
`tag_name.split()[0] if " " in tag_name else tag_name` (`text.py` line 33). -/
def openTagName (inner : List Char) : TagName :=
  if inner.contains ' ' then inner.takeWhile (fun c => !isSpaceChar c) else inner

/-- Fuelled scanner emulating `re.finditer` of the tag pattern: scan left to
right, at each `[` try to match; on success continue after the match, on
failure continue with the next character.  Matches can only start at `[`. -/
def scanTagsAux : Nat → List Char → List MTag
  | 0, _ => []
  | _ + 1, [] => []
  | fuel + 1, c :: rest =>
    if c = '[' then
      match matchTagBody rest with
      | some (true, inner, r) => MTag.cl inner :: scanTagsAux fuel r
      | some (false, inner, r) => MTag.op (openTagName inner) :: scanTagsAux fuel r
      | none => scanTagsAux fuel rest
    else scanTagsAux fuel rest

/-- All tag occurrences of a line, in order. -/
def scanTags (l : List Char) : List MTag := scanTagsAux l.length l

/-- The opening-tag names of a line, in order (first component of
`parse_markup_tags`). -/
def tagOpens (l : Line) : List TagName :=
  (scanTags l).filterMap fun t => match t with | MTag.op n => some n | MTag.cl _ => none

/-- The closing-tag names of a line, in order (second component of
`parse_markup_tags`). -/
def tagCloses (l : Line) : List TagName :=
  (scanTags l).filterMap fun t => match t with | MTag.cl n => some n | MTag.op _ => none

/-- `parse_markup_tags` (`text.py` lines 8-36). -/
def parse_markup_tags (l : Line) : List TagName × List TagName := (tagOpens l, tagCloses l)

/-- Remove the most recent (right-most) occurrence of `t`, a no-op when `t`
is absent: the `if tag in open_tags` / pop-last loop of `track_open_tags`. -/
def removeLastOcc (st : List TagName) (t : TagName) : List TagName :=
  (st.reverse.erase t).reverse

/-- Process a line's closing tags against a stack. -/
def applyCloses (st : List TagName) (cs : List TagName) : List TagName :=
  cs.foldl removeLastOcc st

/-- One line of `track_open_tags`: extend by all opening tags, then process
all closing tags. -/
def trackLine (st : List TagName) (l : Line) : List TagName :=
  applyCloses (st ++ tagOpens l) (tagCloses l)

/-- `track_open_tags` starting from a given stack. -/
def trackFrom (st : List TagName) (ls : List Line) : List TagName :=
  ls.foldl trackLine st

/-- `track_open_tags` (`text.py` lines 39-65). -/
def track_open_tags (ls : List Line) : List TagName := trackFrom [] ls

/-- `close_open_tags` (`text.py` lines 68-82): closing tags in reverse order. -/
def close_open_tags (ts : List TagName) : List Char :=
  (ts.reverse.map fun t => '[' :: '/' :: (t ++ [']'])).join

/-- `open_tags_string` (`text.py` lines 85-98). -/
def open_tags_string (ts : List TagName) : List Char :=
  (ts.map fun t => '[' :: (t ++ [']'])).join

/-- Apply `f` to the first non-blank line (the prepend loop of
`_finalize_page_markup`). -/
def mapFirstNonblank (f : Line → Line) : List Line → List Line
  | [] => []
  | l :: rest =>
    if isBlankLine l then l :: mapFirstNonblank f rest else f l :: rest

/-- Apply `f` to the last non-blank line (the append loop of
`_finalize_page_markup`). -/
def mapLastNonblank (f : Line → Line) : List Line → List Line
  | [] => []
  | l :: rest =>
    if !isBlankLine l && rest.all isBlankLine then f l :: rest
    else l :: mapLastNonblank f rest

/-- `_finalize_page_markup` (`text.py` lines 192-224). -/
def finalize_page_markup (content : List Line) (startTags : List TagName) : List Line :=
  if content = [] then content
  else
    let c1 := if startTags = [] then content
      else mapFirstNonblank (fun l => open_tags_string startTags ++ l) content
    let allOpen := track_open_tags (open_tags_string startTags :: c1)
    if allOpen = [] then c1
    else mapLastNonblank (fun l => l ++ close_open_tags allOpen) c1

/-- The backward search for an empty line:
`for j in range(len(current_page) - 1, max(0, len(current_page) - 5), -1)`
(`text.py` line 143), returning the first (largest) `j` with
`current_page[j] == ""`. -/
def findBlank (taken : List Line) : Option Nat :=
  let n := taken.length
  let lo := n - 5
  ((List.range (n - 1 - lo)).map fun k => n - 1 - k).find? fun j => (taken.getD j []).isEmpty

/-- The `while len(page_content) < visible_height: append("")` padding loop. -/
def padPage (l : List Line) (vh : Int) : List Line :=
  l ++ List.replicate (vh - (l.length : Int)).toNat []

/-- The outer `while i < len(lines)` loop of `create_pages`
(`text.py` lines 129-189), with fuel.  The loop state is the list of pending
lines (`lines[i:]` with pushed-back lines in front) and `current_open_tags`;
`current_page` is always empty at the start of an iteration, so the inner
fill loop is `rest.take`/`rest.drop`.  `none` means the fuel ran out, i.e.
the Python loop would still be running. -/
def pagesLoopAux (vh : Int) : Nat → List Line → List TagName → Option (List Page)
  | 0, _, _ => none
  | fuel + 1, rest, carry =>
    if rest = [] then some []
    else
      let taken := rest.take vh.toNat
      let restAfter := rest.drop vh.toNat
      if (taken.length : Int) = vh ∧ restAfter ≠ [] then
        match findBlank taken with
        | some j =>
          let fin := finalize_page_markup (taken.take (j + 1)) carry
          let carry2 := track_open_tags (open_tags_string carry :: fin)
          (pagesLoopAux vh fuel (taken.drop (j + 1) ++ restAfter) carry2).map
            fun ps => padPage fin vh :: ps
        | none =>
          let fin := finalize_page_markup taken carry
          let carry2 := track_open_tags (open_tags_string carry :: taken)
          (pagesLoopAux vh fuel restAfter carry2).map fun ps => fin :: ps
      else
        if taken = [] then pagesLoopAux vh fuel rest carry
        else some [padPage (finalize_page_markup taken carry) vh]

/-- `create_pages` (`text.py` lines 119-189).  The fuel `lines.length + 1`
is sufficient whenever `1 ≤ vh` (each iteration consumes at least one
pending line); for `vh ≤ 0` and non-empty input the Python loop never
terminates and the fuel runs out. -/
def create_pages (lines : List Line) (vh : Int) : List Page :=
  (pagesLoopAux vh (lines.length + 1) lines []).getD []

/-- `create_pages` resumed from an arbitrary `current_open_tags` state. -/
def create_pages_from (carry : List TagName) (lines : List Line) (vh : Int) : List Page :=
  (pagesLoopAux vh (lines.length + 1) lines carry).getD []

/-- The sequence of `current_open_tags` values passed into
`_finalize_page_markup`, one per emitted page; mirrors `pagesLoopAux`. -/
def pagesLoopCarries (vh : Int) : Nat → List Line → List TagName → List (List TagName)
  | 0, _, _ => []
  | fuel + 1, rest, carry =>
    if rest = [] then []
    else
      let taken := rest.take vh.toNat
      let restAfter := rest.drop vh.toNat
      if (taken.length : Int) = vh ∧ restAfter ≠ [] then
        match findBlank taken with
        | some j =>
          let fin := finalize_page_markup (taken.take (j + 1)) carry
          let carry2 := track_open_tags (open_tags_string carry :: fin)
          carry :: pagesLoopCarries vh fuel (taken.drop (j + 1) ++ restAfter) carry2
        | none =>
          let carry2 := track_open_tags (open_tags_string carry :: taken)
          carry :: pagesLoopCarries vh fuel restAfter carry2
      else
        if taken = [] then pagesLoopCarries vh fuel rest carry
        else [carry]

/-- The tag-stack transition of the specification's reading of per-page
balance: markers processed strictly left to right; an opening marker pushes,
a closing marker pops the most recently pushed matching name (no-op when
there is none). -/
def scanStep (st : List TagName) (t : MTag) : List TagName :=
  match t with
  | MTag.op n => st ++ [n]
  | MTag.cl n => removeLastOcc st n

/-- Left-to-right interleaved tag stack of one line. -/
def scanLineStack (st : List TagName) (l : Line) : List TagName :=
  (scanTags l).foldl scanStep st

/-- The claim's tag stack after scanning a whole page left to right. -/
def pageScanStack (p : Page) : List TagName := p.foldl scanLineStack []

/-- A line is scan-clean when every `[` in it begins a successful tag match:
the scanner never skips over a failed `[`. -/
def scanCleanAux : Nat → List Char → Bool
  | 0, _ => true
  | _ + 1, [] => true
  | fuel + 1, c :: rest =>
    if c = '[' then
      match matchTagBody rest with
      | some (_, _, r) => scanCleanAux fuel r
      | none => false
    else scanCleanAux fuel rest

/-- Every `[` of the line begins a well-formed markup marker. -/
def scanClean (l : List Char) : Bool := scanCleanAux l.length l

/-- Well-formedness of a tag name as produced by the scanner: non-empty,
contains no `]` and no space, starts with a maximal non-empty run of name
characters followed by nothing or by whitespace.  Such names round-trip
through `open_tags_string` / `close_open_tags`. -/
def nameOK (n : TagName) : Bool :=
  !n.isEmpty && !n.contains ']' && !n.contains ' ' &&
  !(n.takeWhile isNameChar).isEmpty &&
  (match n.dropWhile isNameChar with
   | [] => true
   | c :: _ => isSpaceChar c)

/-! ## The reflow pipeline: `textwrap.wrap` (CPython 3.11) with default options,
as called by `wrap_text_to_width`. -/

/-- `str.expandtabs(8)`: `col` is the column within the current line,
reset by `\n` and `\r`. -/
def expandTabsAux (col : Nat) : List Char → List Char
  | [] => []
  | c :: rest =>
    if c = '\t' then
      List.replicate (8 - col % 8) ' ' ++ expandTabsAux (col + (8 - col % 8)) rest
    else if c = '\n' || c = '\r' then c :: expandTabsAux 0 rest
    else c :: expandTabsAux (col + 1) rest

/-- `TextWrapper._munge_whitespace`: expand tabs, then translate every
whitespace character to a space. -/
def mungeWhitespace (t : List Char) : List Char :=
  (expandTabsAux 0 t).map fun c => if isSpaceChar c then ' ' else c

/-- `\w` of the wordsep regex (ASCII model). -/
def isWordChar (c : Char) : Bool := c.isAlpha || c.isDigit || c = '_'

/-- `[^\d\W]` (a word character that is not a digit) of the wordsep regex. -/
def isLetterChar (c : Char) : Bool := c.isAlpha || c = '_'

/-- `word_punct = [\w!"\'&.,?]` of the wordsep regex. -/
def isWordPunct (c : Char) : Bool :=
  isWordChar c || c = '!' || c = '"' || c = '\'' || c = '&' || c = '.' || c = ',' || c = '?'

def headIsLetter : List Char → Bool
  | c :: _ => isLetterChar c
  | [] => false

def headIsWord : List Char → Bool
  | c :: _ => isWordChar c
  | [] => false

/-- Lookbehind of the hyphenated-word alternative,
`(?<=[^\d\W]{2}-)|(?<=[^\d\W]-[^\d\W]-)`, checked after consuming the
hyphen; `ctx` is the text before that hyphen, reversed (most recent first). -/
def hyphenLookbehind (ctx : List Char) : Bool :=
  match ctx with
  | a :: b :: rest =>
    (isLetterChar a && isLetterChar b) ||
    (isLetterChar a && b = '-' && headIsLetter rest)
  | _ => false

/-- Lookahead of the hyphenated-word alternative, `(?=[^\d\W]-?[^\d\W])`. -/
def hyphenLookahead (rs : List Char) : Bool :=
  match rs with
  | l1 :: t =>
    isLetterChar l1 &&
      (headIsLetter t || (match t with | '-' :: t2 => headIsLetter t2 | _ => false))
  | [] => false

/-- Lookahead `(?=-{2,}\w)`: a maximal run of at least two hyphens followed by
a word character (inside a lookahead only the maximal run can succeed). -/
def emdashLookahead (rest : List Char) : Bool :=
  let run := rest.takeWhile fun c => c == '-'
  2 ≤ run.length && headIsWord (rest.drop run.length)

/-- The lazy word alternative `\S+?(...)` of the wordsep regex: having
consumed the non-empty `consRev` (reversed), extend one character at a time;
after each character try, in the regex's alternation order, (A) the
hyphenated-word branch (consuming the hyphen), (B) end-of-word
(`(?=\s|\Z)`), (C) the em-dash boundary (`(?<=wp)(?=-{2,}\w)`).
Returns the matched word (reversed) and the remaining input. -/
def wordScan (beforeRev : List Char) : List Char → List Char → List Char × List Char
  | consRev, [] => (consRev, [])
  | consRev, c :: rs =>
    if c = '-' && hyphenLookbehind (consRev ++ beforeRev) && hyphenLookahead rs then
      (c :: consRev, rs)
    else if isSpaceChar c then (consRev, c :: rs)
    else if (match consRev with | d :: _ => isWordPunct d | [] => false)
            && emdashLookahead (c :: rs) then
      (consRev, c :: rs)
    else wordScan beforeRev (c :: consRev) rs

/-- `TextWrapper._split` with `break_on_hyphens=True`: the wordsep regex
matches at every position of a non-empty text (a whitespace run, an em-dash
run between words, or a lazy word), so `re.split` produces exactly the list
of matches (the gaps are empty and removed by the `if c` filter). -/
def wordsepAux (beforeRev : List Char) : Nat → List Char → List (List Char)
  | 0, _ => []
  | _ + 1, [] => []
  | fuel + 1, c :: rs =>
    if isSpaceChar c then
      let run := (c :: rs).takeWhile isSpaceChar
      run :: wordsepAux (run.reverse ++ beforeRev) fuel ((c :: rs).drop run.length)
    else if (match beforeRev with | d :: _ => isWordPunct d | [] => false)
            && emdashLookahead (c :: rs) then
      let run := (c :: rs).takeWhile fun d => d == '-'
      run :: wordsepAux (run.reverse ++ beforeRev) fuel ((c :: rs).drop run.length)
    else
      let w := wordScan beforeRev [c] rs
      w.1.reverse :: wordsepAux (w.1 ++ beforeRev) fuel w.2

/-- `TextWrapper._split` on munged text. -/
def splitChunks (t : List Char) : List (List Char) := wordsepAux [] t.length t

/-- `chunk.strip() == ''`. -/
def isAllWs (c : List Char) : Bool := c.all isSpaceChar

/-- The inner greedy loop of `_wrap_chunks`: pop chunks onto the current line
while they fit.  Returns (current line, remaining stack, current length). -/
def greedyFill (w : Int) : List (List Char) → Int → List (List Char) × List (List Char) × Int
  | [], curLen => ([], [], curLen)
  | c :: rest, curLen =>
    if curLen + (c.length : Int) ≤ w then
      let g := greedyFill w rest (curLen + (c.length : Int))
      (c :: g.1, g.2.1, g.2.2)
    else ([], c :: rest, curLen)

/-- `chunk.rfind('-', 0, space_left)` on `pre = chunk[:space_left]`. -/
def rfindHyphen (pre : List Char) : Option Nat :=
  match pre.reverse.findIdx? (fun c => c == '-') with
  | some k => some (pre.length - 1 - k)
  | none => none

/-- `TextWrapper._handle_long_word` with `break_long_words=True` and
`break_on_hyphens=True`: returns the piece appended to the current line and
the shrunk chunk left on the stack. -/
def handleLongWord (w : Int) (curLen : Int) (c : List Char) : List Char × List Char :=
  let spaceLeft := if w < 1 then 1 else w - curLen
  let e : Int :=
    if (c.length : Int) > spaceLeft then
      match rfindHyphen (c.take spaceLeft.toNat) with
      | some hy =>
        if 0 < hy ∧ (c.take hy).any (fun d => d != '-') then (hy : Int) + 1 else spaceLeft
      | none => spaceLeft
    else spaceLeft
  (c.take e.toNat, c.drop e.toNat)

/-- The `while chunks` loop of `_wrap_chunks` (defaults: no indents,
`max_lines=None`, `drop_whitespace=True`), with fuel; `acc` holds the
emitted lines in reverse.  Each iteration: drop a leading all-whitespace
chunk (once at least one line was emitted), greedily fill, break a too-long
word, drop a trailing all-whitespace piece, and emit the line if non-empty. -/
def wrapChunksLoop (w : Int) : Nat → List (List Char) → List (List Char) → Option (List (List Char))
  | 0, _, _ => none
  | fuel + 1, stack, acc =>
    match stack with
    | [] => some acc.reverse
    | c0 :: rest0 =>
      let stack0 := if isAllWs c0 && !acc.isEmpty then rest0 else c0 :: rest0
      let g := greedyFill w stack0 0
      let cur := g.1
      let next :=
        match g.2.1 with
        | c :: rest =>
          if (c.length : Int) > w then
            let hl := handleLongWord w g.2.2 c
            (cur ++ [hl.1], hl.2 :: rest)
          else (cur, c :: rest)
        | [] => (cur, ([] : List (List Char)))
      let cur3 :=
        match next.1.getLast? with
        | some lc => if isAllWs lc then next.1.dropLast else next.1
        | none => next.1
      let acc2 := if cur3.isEmpty then acc else cur3.join :: acc
      wrapChunksLoop w fuel next.2 acc2

/-- Fuel bound for `wrapChunksLoop`: every iteration with a non-empty stack
strictly decreases this measure. -/
def chunksMeasure (chunks : List (List Char)) : Nat :=
  (chunks.map fun c => c.length + 1).sum

/-- `textwrap.wrap(text, width)` with default options; `none` models the
`ValueError` raised when `width <= 0`. -/
def textwrap_wrap (t : List Char) (w : Int) : Option (List (List Char)) :=
  if w ≤ 0 then none
  else
    let chunks := splitChunks (mungeWhitespace t)
    some ((wrapChunksLoop w (chunksMeasure chunks + 1) chunks []).getD [])

/-- `text.split("\n")`. -/
def splitNl : List Char → List (List Char)
  | [] => [[]]
  | c :: rest =>
    if c = '\n' then [] :: splitNl rest
    else
      match splitNl rest with
      | s :: ss => (c :: s) :: ss
      | [] => [[c]]

/-- `wrap_text_to_width` (`text.py` lines 101-116): split on newlines, wrap
each non-blank segment (`textwrap.wrap(line, width) or [""]`), keep one
empty line per blank segment.  `none` when any `textwrap.wrap` call raises. -/
def wrap_text_to_width (text : List Char) (width : Int) : Option (List Line) :=
  (splitNl text).foldr
    (fun line acc =>
      match acc with
      | none => none
      | some rest =>
        if !isBlankLine line then
          match textwrap_wrap line width with
          | none => none
          | some ws => some ((if ws.isEmpty then [[]] else ws) ++ rest)
        else some ([] :: rest))
    (some [])

/-! ## Double-page composition -/

/-- `re.sub(r"\[/?[^\]]*\]", "", line)` in `_format_line_for_column`: remove
every bracketed marker (through the first `]`); a `[` with no later `]` is
kept. -/
def stripMarkupAux : Nat → List Char → List Char
  | 0, _ => []
  | _ + 1, [] => []
  | fuel + 1, c :: rest =>
    if c = '[' then
      if rest.contains ']' then
        stripMarkupAux fuel ((rest.dropWhile fun d => d != ']').tail)
      else c :: stripMarkupAux fuel rest
    else c :: stripMarkupAux fuel rest

def stripMarkup (l : List Char) : List Char := stripMarkupAux l.length l

/-- Python slice `l[:k]`, with a negative `k` counting from the end. -/
def pySliceTo (l : List Char) (k : Int) : List Char :=
  if 0 ≤ k then l.take k.toNat else l.take ((l.length : Int) + k).toNat

/-- `_format_line_for_column` (`text.py` lines 322-352). -/
def format_line_for_column (line : List Char) (columnWidth : Int) : List Char :=
  if isBlankLine line then List.replicate columnWidth.toNat ' '
  else
    let visibleLength : Int := ((stripMarkup line).length : Int)
    if visibleLength ≤ columnWidth then
      line ++ List.replicate (columnWidth - visibleLength).toNat ' '
    else pySliceTo line columnWidth

/-- One left/right pair of `create_double_pages_with_width`: pad both pages
to the common height, then format and join each row. -/
def combineColumns (cw : Int) (sep : List Char) (left right : List (List Char)) :
    List (List Char) :=
  let maxH := max left.length right.length
  let lp := left ++ List.replicate (maxH - left.length) []
  let rp := right ++ List.replicate (maxH - right.length) []
  (lp.zip rp).map fun p => format_line_for_column p.1 cw ++ sep ++ format_line_for_column p.2 cw

/-- The `for i in range(0, len(pages), 2)` pair loop; an odd last page is
paired with `[""] * len(left_page)`. -/
def doublePairsAux (cw : Int) (sep : List Char) : List Page → List Page
  | [] => []
  | [l] => [combineColumns cw sep l (List.replicate l.length [])]
  | l :: r :: rest => combineColumns cw sep l r :: doublePairsAux cw sep rest

/-- `create_double_pages_with_width` (`text.py` lines 270-319);
`column_width = (total_width - len(separator)) // 2` with Python floor
division. -/
def create_double_pages_with_width (pages : List Page) (totalWidth : Int) (sep : List Char) :
    List Page :=
  if pages.isEmpty then []
  else doublePairsAux ((totalWidth - (sep.length : Int)).fdiv 2) sep pages

/-! ## Navigation state machine (`state.py` / `controller.py`) -/

/-- The layout parameters under which pages are computed: `text_width`,
`visible_height`, the effective double-page mode and the configured
separator (all fixed while comparing navigation steps). -/
structure Layout where
  textWidth : Int
  visibleHeight : Int
  doublePage : Bool
  separator : List Char
deriving DecidableEq, Repr

/-- `ReadingState.get_current_chapter().content`: the chapter's content, or
`""` for an out-of-range index. -/
def chapterContent (book : List (List Char)) (c : Int) : List Char :=
  if 0 ≤ c ∧ c < (book.length : Int) then book.getD c.toNat [] else []

/-- The page sequence computed for chapter `c` under layout `P`, as in
`PageManager.get_current_pages` / `prev_page` / `goto_end`
(`state.py`): wrap (width `max(20, (text_width - len(sep)) // 2 - 2)` in
double-page mode, else `text_width`), paginate, and optionally compose
double pages.  `none` when `wrap_text_to_width` raises (width ≤ 0). -/
def chapterPages (book : List (List Char)) (P : Layout) (c : Int) : Option (List Page) :=
  let content := chapterContent book c
  if P.doublePage then
    let spw := (P.textWidth - (P.separator.length : Int)).fdiv 2 - 2
    (wrap_text_to_width content (max 20 spw)).map fun lines =>
      create_double_pages_with_width (create_pages lines P.visibleHeight) P.textWidth P.separator
  else
    (wrap_text_to_width content P.textWidth).map fun lines =>
      create_pages lines P.visibleHeight

/-- Total version of `chapterPages` used by the navigation steps (when it is
`none` the Python code raised instead of navigating; the theorems below
assume a layout for which pages are computed). -/
def getPagesD (book : List (List Char)) (P : Layout) (c : Int) : List Page :=
  (chapterPages book P c).getD []

/-- `(current_chapter, current_page)` of `ReadingState`. -/
structure NavState where
  chapter : Int
  page : Int
deriving DecidableEq, Repr

/-- The clamp `get_current_pages` applies before every key is handled:
`max(0, min(current_page, len(pages) - 1))`. -/
def clampPage (p : Int) (n : Nat) : Int := max 0 (min p ((n : Int) - 1))

/-- One `next_page` key as the controller handles it: `get_current_pages`
(which clamps `current_page`), then `PageManager.next_page`, deferring to
`ReadingState.next_chapter` at the end of the chapter
(`state.py` lines 290-298, 42-47; `controller.py` lines 171-178). -/
def navNext (book : List (List Char)) (P : Layout) (s : NavState) : NavState :=
  let pages := getPagesD book P s.chapter
  let p := clampPage s.page pages.length
  if p < (pages.length : Int) - 1 then { chapter := s.chapter, page := p + 1 }
  else if s.chapter < (book.length : Int) - 1 then { chapter := s.chapter + 1, page := 0 }
  else { chapter := s.chapter, page := p }

/-- One `prev_page` key: clamp, then `PageManager.prev_page`, which moves to
the last page of the freshly recomputed previous chapter at page 0
(`state.py` lines 300-331; `controller.py` lines 180-189). -/
def navPrev (book : List (List Char)) (P : Layout) (s : NavState) : NavState :=
  let pages := getPagesD book P s.chapter
  let p := clampPage s.page pages.length
  if 0 < p then { chapter := s.chapter, page := p - 1 }
  else if 0 < s.chapter then
    let prevPages := getPagesD book P (s.chapter - 1)
    { chapter := s.chapter - 1,
      page := if prevPages.isEmpty then 0 else (prevPages.length : Int) - 1 }
  else { chapter := s.chapter, page := p }

/-! ## Comparison definitions written from the specification's words -/

/-- Spec-side description for the amended C3: the consecutive width-sized
chunks into which the wrapper cuts a hyphen-free over-long token. -/
def chunksOfWidthAux (w : Nat) : Nat → List Char → List (List Char)
  | 0, _ => []
  | fuel + 1, t => if t.length ≤ w then [t] else t.take w :: chunksOfWidthAux w fuel (t.drop w)

/-- Consecutive chunks of `t` of length `w` (the final one possibly shorter). -/
def chunksOfWidth (w : Nat) (t : List Char) : List (List Char) :=
  chunksOfWidthAux w (t.length + 1) t

/-- A non-empty, purely alphanumeric (ASCII) token. -/
def isAlnumToken (t : List Char) : Bool :=
  !t.isEmpty && t.all fun c => c.isAlpha || c.isDigit

end TRead

-- ===== THEOREMS: scanner lemmas =====
namespace TRead

theorem scanTagsAux_nil (f : Nat) : scanTagsAux f [] = [] := by cases f <;> rfl

theorem scanCleanAux_nil (f : Nat) : scanCleanAux f [] = true := by cases f <;> rfl

theorem tagBodyCore_length {isCl b : Bool} {l1 nm r : List Char}
    (h : tagBodyCore isCl l1 = some (b, nm, r)) : r.length < l1.length := by
  have hsplit := congrArg List.length (List.takeWhile_append_dropWhile isNameChar l1)
  simp only [List.length_append] at hsplit
  simp only [tagBodyCore] at h
  by_cases hnm : l1.takeWhile isNameChar = []
  · rw [if_pos hnm] at h; exact absurd h (by simp)
  rw [if_neg hnm] at h
  have hpos : 0 < (l1.takeWhile isNameChar).length := List.length_pos.mpr hnm
  by_cases hhd : (l1.dropWhile isNameChar).head? = some ']'
  · rw [if_pos hhd] at h
    obtain ⟨rfl, rfl, rfl⟩ : isCl = b ∧ l1.takeWhile isNameChar = nm ∧
        (l1.dropWhile isNameChar).tail = r := by simpa using h
    have : (l1.dropWhile isNameChar).tail.length ≤ (l1.dropWhile isNameChar).length := by
      simp [List.length_tail]
    omega
  rw [if_neg hhd] at h
  by_cases hsp : headIsSpace (l1.dropWhile isNameChar) = true
  · rw [if_pos hsp] at h
    by_cases hr1 : (((l1.dropWhile isNameChar)).dropWhile fun d => d != ']').head? = some ']'
    · rw [if_pos hr1] at h
      have hsplit2 := congrArg List.length
        (List.takeWhile_append_dropWhile (fun d => d != ']') (l1.dropWhile isNameChar))
      simp only [List.length_append] at hsplit2
      obtain ⟨rfl, rfl, rfl⟩ : isCl = b ∧
          l1.takeWhile isNameChar ++ ((l1.dropWhile isNameChar).takeWhile fun d => d != ']')
            = nm ∧
          (((l1.dropWhile isNameChar)).dropWhile fun d => d != ']').tail = r := by
        simpa using h
      have hne2 : ((l1.dropWhile isNameChar)).dropWhile (fun d => d != ']') ≠ [] := by
        intro hc; rw [hc] at hr1; simp at hr1
      have hpos2 : 0 < (((l1.dropWhile isNameChar)).dropWhile fun d => d != ']').length :=
        List.length_pos.mpr hne2
      have : ((((l1.dropWhile isNameChar)).dropWhile fun d => d != ']')).tail.length ≤
          (((l1.dropWhile isNameChar)).dropWhile fun d => d != ']').length := by
        simp [List.length_tail]
      omega
    · rw [if_neg hr1] at h; exact absurd h (by simp)
  · rw [if_neg hsp] at h; exact absurd h (by simp)

theorem matchTagBody_length {b : Bool} {l nm r : List Char}
    (h : matchTagBody l = some (b, nm, r)) : r.length < l.length := by
  unfold matchTagBody at h
  split at h
  · rename_i hh
    have := tagBodyCore_length h
    cases l with
    | nil => simp at hh
    | cons c cs => simp at this ⊢; omega
  · exact tagBodyCore_length h

theorem scanTagsAux_congr : ∀ f₁ f₂ (l : List Char), l.length ≤ f₁ → l.length ≤ f₂ →
    scanTagsAux f₁ l = scanTagsAux f₂ l := by
  intro f₁
  induction f₁ with
  | zero =>
    intro f₂ l hl _
    have : l = [] := List.length_eq_zero.mp (Nat.le_zero.mp hl)
    subst this
    rw [scanTagsAux_nil, scanTagsAux_nil]
  | succ f ih =>
    intro f₂ l hl hl2
    cases l with
    | nil => rw [scanTagsAux_nil, scanTagsAux_nil]
    | cons c rest =>
      cases f₂ with
      | zero => simp at hl2
      | succ f₂ =>
        simp only [scanTagsAux]
        by_cases hc : c = '['
        · simp only [hc, if_pos]
          cases hmt : matchTagBody rest with
          | none =>
            exact ih f₂ rest (by simp at hl; omega) (by simp at hl2; omega)
          | some trip =>
            obtain ⟨b, inner, r⟩ := trip
            have hr := matchTagBody_length hmt
            have hrec : scanTagsAux f r = scanTagsAux f₂ r :=
              ih f₂ r (by simp at hl; omega) (by simp at hl2; omega)
            cases b <;> simp only [hrec]
        · simp only [hc, if_false]
          exact ih f₂ rest (by simp at hl; omega) (by simp at hl2; omega)

theorem scanTags_cons_not_bracket {c : Char} {rest : List Char} (h : ¬(c = '[')) :
    scanTags (c :: rest) = scanTags rest := by
  have hcg : scanTagsAux (rest.length + 1) rest = scanTagsAux rest.length rest :=
    scanTagsAux_congr _ _ rest (Nat.le_succ _) le_rfl
  simp [scanTags, scanTagsAux, h, hcg]

theorem scanTags_cons_match {rest r inner : List Char} {b : Bool}
    (h : matchTagBody rest = some (b, inner, r)) :
    scanTags ('[' :: rest) =
      (if b then MTag.cl inner else MTag.op (openTagName inner)) :: scanTags r := by
  have hr := matchTagBody_length h
  have hrec : scanTagsAux rest.length r = scanTagsAux r.length r :=
    scanTagsAux_congr rest.length r.length r (by omega) le_rfl
  cases b
  · simp [scanTags, scanTagsAux, h, hrec]
  · simp [scanTags, scanTagsAux, h, hrec]

theorem scanTags_cons_fail {rest : List Char} (h : matchTagBody rest = none) :
    scanTags ('[' :: rest) = scanTags rest := by
  have hcg : scanTagsAux (rest.length + 1) rest = scanTagsAux rest.length rest :=
    scanTagsAux_congr _ _ rest (Nat.le_succ _) le_rfl
  simp [scanTags, scanTagsAux, h, hcg]

theorem scanCleanAux_congr : ∀ f₁ f₂ (l : List Char), l.length ≤ f₁ → l.length ≤ f₂ →
    scanCleanAux f₁ l = scanCleanAux f₂ l := by
  intro f₁
  induction f₁ with
  | zero =>
    intro f₂ l hl _
    have : l = [] := List.length_eq_zero.mp (Nat.le_zero.mp hl)
    subst this
    rw [scanCleanAux_nil, scanCleanAux_nil]
  | succ f ih =>
    intro f₂ l hl hl2
    cases l with
    | nil => rw [scanCleanAux_nil, scanCleanAux_nil]
    | cons c rest =>
      cases f₂ with
      | zero => simp at hl2
      | succ f₂ =>
        simp only [scanCleanAux]
        by_cases hc : c = '['
        · simp only [hc, if_pos]
          cases hmt : matchTagBody rest with
          | none => rfl
          | some trip =>
            obtain ⟨b, inner, r⟩ := trip
            have hr := matchTagBody_length hmt
            exact ih f₂ r (by simp at hl; omega) (by simp at hl2; omega)
        · simp only [hc, if_false]
          exact ih f₂ rest (by simp at hl; omega) (by simp at hl2; omega)

theorem scanClean_cons_not_bracket {c : Char} {rest : List Char} (h : ¬(c = '[')) :
    scanClean (c :: rest) = scanClean rest := by
  have hcg : scanCleanAux (rest.length + 1) rest = scanCleanAux rest.length rest :=
    scanCleanAux_congr _ _ rest (Nat.le_succ _) le_rfl
  simp [scanClean, scanCleanAux, h, hcg]

theorem scanClean_cons_match {rest r inner : List Char} {b : Bool}
    (h : matchTagBody rest = some (b, inner, r)) :
    scanClean ('[' :: rest) = scanClean r := by
  have hr := matchTagBody_length h
  have hrec : scanCleanAux rest.length r = scanCleanAux r.length r :=
    scanCleanAux_congr rest.length r.length r (by omega) le_rfl
  simp [scanClean, scanCleanAux, h, hrec]

theorem scanClean_cons_fail {rest : List Char} (h : matchTagBody rest = none) :
    scanClean ('[' :: rest) = false := by
  simp [scanClean, scanCleanAux, h]

theorem tagBodyCore_append {isCl b : Bool} {l1 nm r : List Char} (m : List Char)
    (h : tagBodyCore isCl l1 = some (b, nm, r)) :
    tagBodyCore isCl (l1 ++ m) = some (b, nm, r ++ m) := by
  simp only [tagBodyCore] at h ⊢
  by_cases hnm : l1.takeWhile isNameChar = []
  · rw [if_pos hnm] at h; exact absurd h (by simp)
  rw [if_neg hnm] at h
  have hne : l1.dropWhile isNameChar ≠ [] := by
    intro hc
    rw [hc] at h
    simp [headIsSpace] at h
  obtain ⟨x, xs, hd⟩ : ∃ x xs, l1.dropWhile isNameChar = x :: xs :=
    List.exists_cons_of_ne_nil hne
  have hlen1 : ¬((l1.takeWhile isNameChar).length = l1.length) := by
    have hh := congrArg List.length (List.takeWhile_append_dropWhile isNameChar l1)
    rw [hd] at hh
    simp only [List.length_append, List.length_cons] at hh
    omega
  have htw : (l1 ++ m).takeWhile isNameChar = l1.takeWhile isNameChar := by
    rw [List.takeWhile_append, if_neg hlen1]
  have hdw : (l1 ++ m).dropWhile isNameChar = x :: (xs ++ m) := by
    rw [List.dropWhile_append, hd]
    simp
  rw [hd] at h
  rw [htw, hdw, if_neg hnm]
  by_cases hxb : x = ']'
  · subst hxb
    rw [if_pos (by simp)] at h
    rw [if_pos (by simp)]
    simp only [Option.some.injEq, Prod.mk.injEq, List.tail_cons] at h ⊢
    exact ⟨h.1, h.2.1, by rw [← h.2.2]⟩
  · rw [if_neg (by simpa using hxb)] at h
    rw [if_neg (by simpa using hxb)]
    by_cases hsp : isSpaceChar x = true
    case neg =>
      rw [if_neg (by simpa [headIsSpace] using hsp)] at h
      exact absurd h (by simp)
    rw [if_pos (by simpa [headIsSpace] using hsp)] at h
    rw [if_pos (by simpa [headIsSpace] using hsp)]
    by_cases hr1 : (((x :: xs)).dropWhile fun d => d != ']').head? = some ']'
    case neg =>
      rw [if_neg hr1] at h
      exact absurd h (by simp)
    rw [if_pos hr1] at h
    have hne2 : (((x :: xs)).dropWhile fun d => d != ']') ≠ [] := by
      intro hc; rw [hc] at hr1; simp at hr1
    obtain ⟨y, ys, hd2⟩ : ∃ y ys, (((x :: xs)).dropWhile fun d => d != ']') = y :: ys :=
      List.exists_cons_of_ne_nil hne2
    have hyb : y = ']' := by rw [hd2] at hr1; simpa using hr1
    subst hyb
    have hlen2 : ¬((((x :: xs)).takeWhile fun d => d != ']').length = (x :: xs).length) := by
      have hh := congrArg List.length
        (List.takeWhile_append_dropWhile (fun d => d != ']') (x :: xs))
      rw [hd2] at hh
      simp only [List.length_append, List.length_cons] at hh
      simp only [List.length_cons]
      omega
    have hca : (x :: (xs ++ m)) = (x :: xs) ++ m := by simp
    have htw2 : ((x :: (xs ++ m))).takeWhile (fun d => d != ']') =
        ((x :: xs)).takeWhile fun d => d != ']' := by
      rw [hca, List.takeWhile_append, if_neg hlen2]
    have hdw2 : ((x :: (xs ++ m))).dropWhile (fun d => d != ']') = ']' :: (ys ++ m) := by
      rw [hca, List.dropWhile_append, hd2]
      simp
    rw [hd2] at h
    rw [htw2, hdw2]
    rw [if_pos (by simp)]
    simp only [Option.some.injEq, Prod.mk.injEq, List.tail_cons] at h ⊢
    exact ⟨h.1, h.2.1, by rw [← h.2.2]⟩

theorem matchTagBody_append {b : Bool} {l nm r : List Char} (m : List Char)
    (h : matchTagBody l = some (b, nm, r)) :
    matchTagBody (l ++ m) = some (b, nm, r ++ m) := by
  cases l with
  | nil => simp [matchTagBody, tagBodyCore] at h
  | cons c cs =>
    simp only [matchTagBody, List.head?, List.tail_cons, List.cons_append] at h ⊢
    by_cases hc : c = '/'
    · subst hc
      simp only [if_pos rfl] at h ⊢
      exact tagBodyCore_append m h
    · rw [if_neg (by simpa using hc)] at h
      rw [if_neg (by simpa using hc)]
      exact tagBodyCore_append m h

end TRead

namespace TRead
theorem isNameChar_not_space {c : Char} (h : isNameChar c = true) : isSpaceChar c = false := by
  by_contra hc
  simp only [Bool.not_eq_false, isSpaceChar, Bool.or_eq_true, decide_eq_true_eq] at hc
  rcases hc with ((((rfl | rfl) | rfl) | rfl) | rfl) | rfl <;> simp [isNameChar] at h

theorem isSpaceChar_not_nameChar {c : Char} (h : isSpaceChar c = true) : isNameChar c = false := by
  by_contra hc
  simp only [Bool.not_eq_false] at hc
  rw [isNameChar_not_space hc] at h
  exact absurd h (by simp)

theorem isSpaceChar_ne_rbracket {c : Char} (h : isSpaceChar c = true) : c ≠ ']' := by
  rintro rfl
  simp [isSpaceChar] at h

theorem isNameChar_ne_rbracket {c : Char} (h : isNameChar c = true) : c ≠ ']' := by
  rintro rfl
  simp [isNameChar] at h

theorem isNameChar_ne_slash {c : Char} (h : isNameChar c = true) : c ≠ '/' := by
  rintro rfl
  simp [isNameChar] at h

theorem scanTags_of_no_bracket : ∀ {l : List Char}, '[' ∉ l → scanTags l = [] := by
  intro l
  induction l with
  | nil => intro _; rfl
  | cons c rest ih =>
    intro h
    have hc : ¬(c = '[') := fun hh => h (hh ▸ List.mem_cons_self c rest)
    rw [scanTags_cons_not_bracket hc]
    exact ih fun hh => h (List.mem_cons_of_mem c hh)

theorem scanClean_of_no_bracket : ∀ {l : List Char}, '[' ∉ l → scanClean l = true := by
  intro l
  induction l with
  | nil => intro _; rfl
  | cons c rest ih =>
    intro h
    have hc : ¬(c = '[') := fun hh => h (hh ▸ List.mem_cons_self c rest)
    rw [scanClean_cons_not_bracket hc]
    exact ih fun hh => h (List.mem_cons_of_mem c hh)

theorem isBlankLine_no_bracket {l : List Char} (h : isBlankLine l = true) : '[' ∉ l := by
  intro hm
  have := List.all_eq_true.mp h '[' hm
  simp [isSpaceChar] at this

theorem scanTags_blank {l : List Char} (h : isBlankLine l = true) : scanTags l = [] :=
  scanTags_of_no_bracket (isBlankLine_no_bracket h)

theorem scanTags_append : ∀ (n : Nat) (l m : List Char), l.length ≤ n → scanClean l = true →
    scanTags (l ++ m) = scanTags l ++ scanTags m := by
  intro n
  induction n with
  | zero =>
    intro l m hl _
    have : l = [] := List.length_eq_zero.mp (Nat.le_zero.mp hl)
    subst this
    simp [scanTags, scanTagsAux_nil]
  | succ n ih =>
    intro l m hl hc
    cases l with
    | nil => simp [scanTags, scanTagsAux_nil]
    | cons c rest =>
      by_cases hbr : c = '['
      · subst hbr
        cases hmt : matchTagBody rest with
        | none => rw [scanClean_cons_fail hmt] at hc; exact absurd hc (by simp)
        | some trip =>
          obtain ⟨b, inner, r⟩ := trip
          have hlr := matchTagBody_length hmt
          have hmt2 := matchTagBody_append m hmt
          rw [List.cons_append, scanTags_cons_match hmt2, scanTags_cons_match hmt,
            ih r m (by simp at hl; omega) (by rwa [scanClean_cons_match hmt] at hc)]
          simp
      · rw [List.cons_append, scanTags_cons_not_bracket hbr, scanTags_cons_not_bracket hbr,
          ih rest m (by simp at hl; omega) (by rwa [scanClean_cons_not_bracket hbr] at hc)]

theorem scanClean_append : ∀ (n : Nat) (l m : List Char), l.length ≤ n → scanClean l = true →
    scanClean m = true → scanClean (l ++ m) = true := by
  intro n
  induction n with
  | zero =>
    intro l m hl _ hm
    have : l = [] := List.length_eq_zero.mp (Nat.le_zero.mp hl)
    subst this
    simpa using hm
  | succ n ih =>
    intro l m hl hc hm
    cases l with
    | nil => simpa using hm
    | cons c rest =>
      by_cases hbr : c = '['
      · subst hbr
        cases hmt : matchTagBody rest with
        | none => rw [scanClean_cons_fail hmt] at hc; exact absurd hc (by simp)
        | some trip =>
          obtain ⟨b, inner, r⟩ := trip
          have hlr := matchTagBody_length hmt
          have hmt2 := matchTagBody_append m hmt
          rw [List.cons_append, scanClean_cons_match hmt2]
          exact ih r m (by simp at hl; omega) (by rwa [scanClean_cons_match hmt] at hc) hm
      · rw [List.cons_append, scanClean_cons_not_bracket hbr]
        exact ih rest m (by simp at hl; omega)
          (by rwa [scanClean_cons_not_bracket hbr] at hc) hm

theorem tagBodyCore_openStr {isCl : Bool} {n : TagName} (rest : List Char)
    (h : nameOK n = true) : tagBodyCore isCl (n ++ ']' :: rest) = some (isCl, n, rest) := by
  simp only [nameOK, Bool.and_eq_true, Bool.not_eq_true'] at h
  obtain ⟨⟨⟨⟨hne, hnb⟩, hns⟩, hntw⟩, hdrop⟩ := h
  have htwne : n.takeWhile isNameChar ≠ [] := by simpa using hntw
  have hmem : ∀ x ∈ n.takeWhile isNameChar, isNameChar x = true :=
    fun x hx => List.mem_takeWhile_imp hx
  have hsplitn := List.takeWhile_append_dropWhile isNameChar n
  have hnbm : ∀ x ∈ n, ¬(x = ']') := by
    intro x hx hxx
    subst hxx
    have : n.contains ']' = true := by simp [List.contains, hx]
    rw [this] at hnb
    exact absurd hnb (by simp)
  have htw : (n ++ ']' :: rest).takeWhile isNameChar = n.takeWhile isNameChar := by
    conv_lhs => rw [← hsplitn, List.append_assoc]
    rw [List.takeWhile_append_of_pos hmem]
    cases hd : n.dropWhile isNameChar with
    | nil =>
      rw [List.nil_append, List.takeWhile_cons_of_neg (by simp [isNameChar])]
      simp
    | cons c bs =>
      rw [hd] at hdrop
      have : isNameChar c = false := isSpaceChar_not_nameChar (by simpa using hdrop)
      rw [List.cons_append, List.takeWhile_cons_of_neg (by simp [this])]
      simp
  have hdw : (n ++ ']' :: rest).dropWhile isNameChar =
      n.dropWhile isNameChar ++ ']' :: rest := by
    conv_lhs => rw [← hsplitn, List.append_assoc]
    rw [List.dropWhile_append_of_pos hmem]
    cases hd : n.dropWhile isNameChar with
    | nil =>
      rw [List.nil_append, List.dropWhile_cons_of_neg (by simp [isNameChar])]
    | cons c bs =>
      rw [hd] at hdrop
      have : isNameChar c = false := isSpaceChar_not_nameChar (by simpa using hdrop)
      rw [List.cons_append, List.dropWhile_cons_of_neg (by simp [this])]
  simp only [tagBodyCore, htw, hdw, if_neg htwne]
  cases hd : n.dropWhile isNameChar with
  | nil =>
    simp only [List.nil_append]
    rw [if_pos (by simp)]
    have : n.takeWhile isNameChar = n := by
      conv_rhs => rw [← hsplitn, hd]
      simp
    simp [this]
  | cons c bs =>
    rw [hd] at hdrop
    have hcsp : isSpaceChar c = true := by simpa using hdrop
    have hcne : ¬(c = ']') := isSpaceChar_ne_rbracket hcsp
    simp only [List.cons_append]
    rw [if_neg (by simpa using hcne)]
    rw [if_pos (by simpa [headIsSpace] using hcsp)]
    have hbsmem : ∀ x ∈ c :: bs, (x != ']') = true := by
      intro x hx
      have : x ∈ n := (List.dropWhile_sublist isNameChar).subset (hd ▸ hx)
      simpa using hnbm x this
    have hdw2 : ((c :: bs) ++ ']' :: rest).dropWhile (fun d => d != ']') = ']' :: rest := by
      rw [List.dropWhile_append_of_pos hbsmem, List.dropWhile_cons_of_neg (by simp)]
    have htw2 : ((c :: bs) ++ ']' :: rest).takeWhile (fun d => d != ']') = c :: bs := by
      rw [List.takeWhile_append_of_pos hbsmem, List.takeWhile_cons_of_neg (by simp)]
      simp
    rw [List.cons_append] at hdw2 htw2
    rw [hdw2, htw2, if_pos (by simp)]
    have : n.takeWhile isNameChar ++ (c :: bs) = n := by
      conv_rhs => rw [← hsplitn, hd]
    simp [this]

theorem nameOK_head_nameChar {n : TagName} (h : nameOK n = true) :
    ∃ c cs, n = c :: cs ∧ isNameChar c = true := by
  simp only [nameOK, Bool.and_eq_true, Bool.not_eq_true'] at h
  obtain ⟨⟨⟨⟨hne, _⟩, _⟩, hntw⟩, _⟩ := h
  have hne' : n ≠ [] := by simpa using hne
  obtain ⟨c, cs, rfl⟩ := List.exists_cons_of_ne_nil hne'
  refine ⟨c, cs, rfl, ?_⟩
  by_contra hc
  simp only [Bool.not_eq_true] at hc
  rw [List.takeWhile_cons_of_neg (by simp [hc])] at hntw
  simp at hntw

theorem matchTagBody_openStr {n : TagName} (rest : List Char) (h : nameOK n = true) :
    matchTagBody (n ++ ']' :: rest) = some (false, n, rest) := by
  obtain ⟨c, cs, rfl, hcn⟩ := nameOK_head_nameChar h
  unfold matchTagBody
  rw [if_neg (by simp [isNameChar_ne_slash hcn])]
  exact tagBodyCore_openStr rest h

theorem matchTagBody_closeStr {n : TagName} (rest : List Char) (h : nameOK n = true) :
    matchTagBody ('/' :: (n ++ ']' :: rest)) = some (true, n, rest) := by
  unfold matchTagBody
  rw [if_pos (by simp)]
  exact tagBodyCore_openStr rest h

theorem openTagName_of_nameOK {n : TagName} (h : nameOK n = true) : openTagName n = n := by
  simp only [nameOK, Bool.and_eq_true, Bool.not_eq_true'] at h
  unfold openTagName
  rw [h.1.1.2]
  simp

end TRead

-- ===== THEOREMS: tag-stack lemmas =====
namespace TRead

theorem contains_false_of_not_mem {l : List Char} {a : Char} (h : a ∉ l) :
    l.contains a = false := by
  simp [List.contains, h]

theorem scanTags_openStr_append (ns : List TagName) (rest : List Char)
    (h : ∀ n ∈ ns, nameOK n = true) :
    scanTags (open_tags_string ns ++ rest) = ns.map MTag.op ++ scanTags rest := by
  induction ns with
  | nil => simp [open_tags_string]
  | cons n ns ih =>
    have hstr : open_tags_string (n :: ns) ++ rest =
        '[' :: (n ++ ']' :: (open_tags_string ns ++ rest)) := by
      simp [open_tags_string]
    rw [hstr, scanTags_cons_match (matchTagBody_openStr _ (h n (List.mem_cons_self n ns)))]
    rw [ih fun x hx => h x (List.mem_cons_of_mem n hx)]
    simp [openTagName_of_nameOK (h n (List.mem_cons_self n ns))]

theorem scanClean_openStr_append (ns : List TagName) (rest : List Char)
    (h : ∀ n ∈ ns, nameOK n = true) (hrest : scanClean rest = true) :
    scanClean (open_tags_string ns ++ rest) = true := by
  induction ns with
  | nil => simpa [open_tags_string] using hrest
  | cons n ns ih =>
    have hstr : open_tags_string (n :: ns) ++ rest =
        '[' :: (n ++ ']' :: (open_tags_string ns ++ rest)) := by
      simp [open_tags_string]
    rw [hstr, scanClean_cons_match (matchTagBody_openStr _ (h n (List.mem_cons_self n ns)))]
    exact ih fun x hx => h x (List.mem_cons_of_mem n hx)

theorem scanTags_closeStrList (ms : List TagName) (h : ∀ n ∈ ms, nameOK n = true) :
    scanTags ((ms.map fun t => '[' :: '/' :: (t ++ [']'])).join) = ms.map MTag.cl := by
  induction ms with
  | nil => rfl
  | cons n ms ih =>
    have hstr : ((n :: ms).map fun t => '[' :: '/' :: (t ++ [']'])).join =
        '[' :: ('/' :: (n ++ ']' :: ((ms.map fun t => '[' :: '/' :: (t ++ [']'])).join))) := by
      simp
    rw [hstr, scanTags_cons_match (matchTagBody_closeStr _ (h n (List.mem_cons_self n ms)))]
    rw [ih fun x hx => h x (List.mem_cons_of_mem n hx)]
    simp

theorem scanTags_close_open_tags (ns : List TagName) (h : ∀ n ∈ ns, nameOK n = true) :
    scanTags (close_open_tags ns) = ns.reverse.map MTag.cl := by
  unfold close_open_tags
  exact scanTags_closeStrList ns.reverse fun x hx => h x (List.mem_reverse.mp hx)

theorem tagOpens_openStr_append (ns : List TagName) (rest : List Char)
    (h : ∀ n ∈ ns, nameOK n = true) :
    tagOpens (open_tags_string ns ++ rest) = ns ++ tagOpens rest := by
  unfold tagOpens
  rw [scanTags_openStr_append ns rest h, List.filterMap_append, List.filterMap_map]
  congr 1
  induction ns with
  | nil => rfl
  | cons n ns ih => simpa using ih fun x hx => h x (List.mem_cons_of_mem n hx)

theorem tagCloses_openStr_append (ns : List TagName) (rest : List Char)
    (h : ∀ n ∈ ns, nameOK n = true) :
    tagCloses (open_tags_string ns ++ rest) = tagCloses rest := by
  unfold tagCloses
  rw [scanTags_openStr_append ns rest h, List.filterMap_append, List.filterMap_map]
  have : ∀ ms : List TagName, ms.filterMap
      ((fun t => match t with | MTag.cl n => some n | MTag.op _ => none) ∘ MTag.op) = [] := by
    intro ms
    induction ms with
    | nil => rfl
    | cons x xs ihx => simp only [List.filterMap_cons]; exact ihx
  rw [this]
  rfl

theorem tagOpens_append_closeStr (l : List Char) (ts : List TagName)
    (hl : scanClean l = true) (hts : ∀ n ∈ ts, nameOK n = true) :
    tagOpens (l ++ close_open_tags ts) = tagOpens l := by
  unfold tagOpens
  rw [scanTags_append l.length l _ le_rfl hl, List.filterMap_append,
    scanTags_close_open_tags ts hts, List.filterMap_map]
  have : ∀ ms : List TagName, ms.filterMap
      ((fun t => match t with | MTag.op n => some n | MTag.cl _ => none) ∘ MTag.cl) = [] := by
    intro ms
    induction ms with
    | nil => rfl
    | cons x xs ihx => simp only [List.filterMap_cons]; exact ihx
  rw [this]
  simp

theorem tagCloses_append_closeStr (l : List Char) (ts : List TagName)
    (hl : scanClean l = true) (hts : ∀ n ∈ ts, nameOK n = true) :
    tagCloses (l ++ close_open_tags ts) = tagCloses l ++ ts.reverse := by
  unfold tagCloses
  rw [scanTags_append l.length l _ le_rfl hl, List.filterMap_append,
    scanTags_close_open_tags ts hts, List.filterMap_map]
  congr 1
  induction ts.reverse with
  | nil => rfl
  | cons x xs ihx => simpa using ihx

theorem removeLastOcc_nil (t : TagName) : removeLastOcc [] t = [] := rfl

theorem applyCloses_nil_stack : ∀ cs : List TagName, applyCloses [] cs = [] := by
  intro cs
  induction cs with
  | nil => rfl
  | cons t ts ih =>
    show applyCloses (removeLastOcc [] t) ts = []
    rw [removeLastOcc_nil]
    exact ih

theorem applyCloses_cons (st : List TagName) (t : TagName) (ts : List TagName) :
    applyCloses st (t :: ts) = applyCloses (removeLastOcc st t) ts := rfl

theorem applyCloses_append_cs (st : List TagName) (cs ds : List TagName) :
    applyCloses st (cs ++ ds) = applyCloses (applyCloses st cs) ds := by
  unfold applyCloses
  rw [List.foldl_append]

theorem removeLastOcc_concat (x : List TagName) (n : TagName) :
    removeLastOcc (x ++ [n]) n = x := by
  unfold removeLastOcc
  rw [List.reverse_append]
  simp

theorem applyCloses_rev : ∀ ns : List TagName, applyCloses ns.reverse ns = [] := by
  intro ns
  induction ns with
  | nil => rfl
  | cons n t ih =>
    rw [applyCloses_cons, List.reverse_cons, removeLastOcc_concat]
    exact ih

theorem applyCloses_self_reverse (st : List TagName) : applyCloses st st.reverse = [] := by
  have := applyCloses_rev st.reverse
  rwa [List.reverse_reverse] at this

theorem removeLastOcc_of_not_mem {s : List TagName} {t : TagName} (h : t ∉ s) :
    removeLastOcc s t = s := by
  unfold removeLastOcc
  rw [List.erase_of_not_mem (by simpa using h), List.reverse_reverse]

theorem removeLastOcc_append_left {c s : List TagName} {t : TagName} (h : t ∈ s) :
    removeLastOcc (c ++ s) t = c ++ removeLastOcc s t := by
  unfold removeLastOcc
  rw [List.reverse_append, List.erase_append_left _ (by simpa using h), List.reverse_append,
    List.reverse_reverse]

theorem removeLastOcc_append_right {c s : List TagName} {t : TagName} (h : t ∉ s) :
    removeLastOcc (c ++ s) t = removeLastOcc c t ++ s := by
  unfold removeLastOcc
  rw [List.reverse_append, List.erase_append_right _ (by simpa using h), List.reverse_append,
    List.reverse_reverse]

theorem applyCloses_append_exists : ∀ (cs c s : List TagName),
    ∃ c', applyCloses (c ++ s) cs = c' ++ applyCloses s cs := by
  intro cs
  induction cs with
  | nil => exact fun c s => ⟨c, rfl⟩
  | cons t ts ih =>
    intro c s
    by_cases ht : t ∈ s
    · rw [applyCloses_cons, applyCloses_cons, removeLastOcc_append_left ht]
      exact ih c (removeLastOcc s t)
    · rw [applyCloses_cons, applyCloses_cons, removeLastOcc_append_right ht,
        removeLastOcc_of_not_mem ht]
      exact ih (removeLastOcc c t) s

theorem trackFrom_cons (s : List TagName) (l : Line) (ls : List Line) :
    trackFrom s (l :: ls) = trackFrom (trackLine s l) ls := rfl

theorem trackFrom_append_exists : ∀ (ls : List Line) (c s : List TagName),
    ∃ c', trackFrom (c ++ s) ls = c' ++ trackFrom s ls := by
  intro ls
  induction ls with
  | nil => exact fun c s => ⟨c, rfl⟩
  | cons l ls ih =>
    intro c s
    have h1 : trackLine (c ++ s) l = applyCloses (c ++ (s ++ tagOpens l)) (tagCloses l) := by
      unfold trackLine
      rw [List.append_assoc]
    obtain ⟨c1, hc1⟩ := applyCloses_append_exists (tagCloses l) c (s ++ tagOpens l)
    obtain ⟨c2, hc2⟩ := ih c1 (trackLine s l)
    refine ⟨c2, ?_⟩
    rw [trackFrom_cons, trackFrom_cons, h1, hc1]
    exact hc2

theorem mem_removeLastOcc {st : List TagName} {t x : TagName}
    (h : x ∈ removeLastOcc st t) : x ∈ st := by
  unfold removeLastOcc at h
  rw [List.mem_reverse] at h
  have := List.mem_of_mem_erase h
  rwa [List.mem_reverse] at this

theorem mem_applyCloses : ∀ (cs st : List TagName) (x : TagName),
    x ∈ applyCloses st cs → x ∈ st := by
  intro cs
  induction cs with
  | nil => exact fun st x h => h
  | cons t ts ih =>
    intro st x h
    rw [applyCloses_cons] at h
    exact mem_removeLastOcc (ih _ x h)

theorem mem_trackFrom : ∀ (ls : List Line) (s : List TagName) (x : TagName),
    x ∈ trackFrom s ls → x ∈ s ∨ ∃ l ∈ ls, x ∈ tagOpens l := by
  intro ls
  induction ls with
  | nil => exact fun s x h => Or.inl h
  | cons l ls ih =>
    intro s x h
    rw [trackFrom_cons] at h
    rcases ih _ x h with hx | ⟨l', hl', hx⟩
    · have := mem_applyCloses _ _ _ hx
      rcases List.mem_append.mp this with hs | ho
      · exact Or.inl hs
      · exact Or.inr ⟨l, List.mem_cons_self l ls, ho⟩
    · exact Or.inr ⟨l', List.mem_cons_of_mem l hl', hx⟩

end TRead

namespace TRead

theorem nameOK_of_all_nameChar {nm : TagName} (hne : nm ≠ [])
    (hall : ∀ x ∈ nm, isNameChar x = true) : nameOK nm = true := by
  have hns : nm.contains ' ' = false := contains_false_of_not_mem (by
    intro hmem
    have := hall ' ' hmem
    simp [isNameChar] at this)
  have hnb : nm.contains ']' = false := contains_false_of_not_mem (by
    intro hmem
    have := hall ']' hmem
    simp [isNameChar] at this)
  have htw : nm.takeWhile isNameChar = nm := List.takeWhile_eq_self_iff.mpr hall
  have hdw : nm.dropWhile isNameChar = [] := List.dropWhile_eq_nil_iff.mpr hall
  unfold nameOK
  rw [htw, hdw, hns, hnb]
  simp [List.isEmpty_iff, hne]

theorem openTagName_all_nameChar {nm : TagName} (hall : ∀ x ∈ nm, isNameChar x = true) :
    openTagName nm = nm := by
  have hns : nm.contains ' ' = false := contains_false_of_not_mem (by
    intro hmem
    have := hall ' ' hmem
    simp [isNameChar] at this)
  unfold openTagName
  rw [hns]
  simp

theorem nameOK_openTagName_attrs {nm attrs : List Char} {c : Char} {cs : List Char}
    (hne : nm ≠ []) (hall : ∀ x ∈ nm, isNameChar x = true)
    (hattrs : attrs = c :: cs) (hc : isSpaceChar c = true)
    (hnorb : ∀ x ∈ attrs, ¬(x = ']')) :
    nameOK (openTagName (nm ++ attrs)) = true := by
  subst hattrs
  have hnmns : ∀ x ∈ nm, (!isSpaceChar x) = true := by
    intro x hx
    simp [isNameChar_not_space (hall x hx)]
  have hcnm : isNameChar c = false := isSpaceChar_not_nameChar hc
  by_cases hsp2 : (nm ++ c :: cs).contains ' ' = true
  · unfold openTagName
    rw [hsp2]
    simp only [if_true]
    rw [List.takeWhile_append_of_pos hnmns, List.takeWhile_cons_of_neg (by simp [hc])]
    rw [List.append_nil]
    exact nameOK_of_all_nameChar hne hall
  · unfold openTagName
    rw [Bool.not_eq_true] at hsp2
    rw [hsp2]
    simp only [Bool.false_eq_true, if_false]
    have h1 : (nm ++ c :: cs).isEmpty = false := by
      simp [List.isEmpty_iff, hne]
    have h2 : (nm ++ c :: cs).contains ']' = false := contains_false_of_not_mem (by
      intro hmem
      rcases List.mem_append.mp hmem with hm1 | hm2
      · exact absurd (hall ']' hm1) (by simp [isNameChar])
      · exact hnorb ']' hm2 rfl)
    have h3 : (nm ++ c :: cs).takeWhile isNameChar = nm := by
      rw [List.takeWhile_append_of_pos hall, List.takeWhile_cons_of_neg (by simp [hcnm])]
      simp
    have h4 : (nm ++ c :: cs).dropWhile isNameChar = c :: cs := by
      rw [List.dropWhile_append_of_pos hall, List.dropWhile_cons_of_neg (by simp [hcnm])]
    unfold nameOK
    rw [h3, h4, h2, hsp2, h1]
    simp [List.isEmpty_iff, hne, hc]

theorem nameOK_openTagName_of_core {isCl b : Bool} {l1 inner r : List Char}
    (h : tagBodyCore isCl l1 = some (b, inner, r)) : nameOK (openTagName inner) = true := by
  simp only [tagBodyCore] at h
  by_cases hnm : l1.takeWhile isNameChar = []
  · rw [if_pos hnm] at h; exact absurd h (by simp)
  rw [if_neg hnm] at h
  have hall : ∀ x ∈ l1.takeWhile isNameChar, isNameChar x = true :=
    fun x hx => List.mem_takeWhile_imp hx
  by_cases hhd : (l1.dropWhile isNameChar).head? = some ']'
  · rw [if_pos hhd] at h
    obtain ⟨-, hinner, -⟩ : isCl = b ∧ l1.takeWhile isNameChar = inner ∧
        (l1.dropWhile isNameChar).tail = r := by simpa using h
    rw [← hinner, openTagName_all_nameChar hall]
    exact nameOK_of_all_nameChar hnm hall
  rw [if_neg hhd] at h
  by_cases hsp : headIsSpace (l1.dropWhile isNameChar) = true
  · rw [if_pos hsp] at h
    by_cases hr1 : (((l1.dropWhile isNameChar)).dropWhile fun d => d != ']').head? = some ']'
    · rw [if_pos hr1] at h
      obtain ⟨-, hinner, -⟩ : isCl = b ∧
          l1.takeWhile isNameChar ++ ((l1.dropWhile isNameChar).takeWhile fun d => d != ']')
            = inner ∧
          (((l1.dropWhile isNameChar)).dropWhile fun d => d != ']').tail = r := by
        simpa using h
      obtain ⟨c0, r0', hd0⟩ : ∃ c0 r0', l1.dropWhile isNameChar = c0 :: r0' := by
        cases hd : l1.dropWhile isNameChar with
        | nil => rw [hd] at hsp; simp [headIsSpace] at hsp
        | cons a as => exact ⟨a, as, rfl⟩
      have hc0 : isSpaceChar c0 = true := by
        rw [hd0] at hsp
        simpa [headIsSpace] using hsp
      have hattrs : (l1.dropWhile isNameChar).takeWhile (fun d => d != ']') =
          c0 :: (r0'.takeWhile fun d => d != ']') := by
        rw [hd0, List.takeWhile_cons_of_pos (by simp [isSpaceChar_ne_rbracket hc0])]
      rw [← hinner]
      exact nameOK_openTagName_attrs hnm hall hattrs hc0 (by
        intro x hx hxx
        subst hxx
        have := List.mem_takeWhile_imp hx
        simp at this)
    · rw [if_neg hr1] at h; exact absurd h (by simp)
  · rw [if_neg hsp] at h; exact absurd h (by simp)

theorem matchTagBody_core_cases {b : Bool} {l inner r : List Char}
    (h : matchTagBody l = some (b, inner, r)) :
    ∃ isCl l1, tagBodyCore isCl l1 = some (b, inner, r) := by
  unfold matchTagBody at h
  split at h
  · exact ⟨true, l.tail, h⟩
  · exact ⟨false, l, h⟩

theorem nameOK_mem_scanTags : ∀ (k : Nat) (l : List Char), l.length ≤ k →
    ∀ nm, MTag.op nm ∈ scanTags l → nameOK nm = true := by
  intro k
  induction k with
  | zero =>
    intro l hl nm hm
    have : l = [] := List.length_eq_zero.mp (Nat.le_zero.mp hl)
    subst this
    exact absurd hm (by simp [scanTags, scanTagsAux_nil])
  | succ k ih =>
    intro l hl nm hm
    cases l with
    | nil => exact absurd hm (by simp [scanTags, scanTagsAux_nil])
    | cons c rest =>
      by_cases hbr : c = '['
      · subst hbr
        cases hmt : matchTagBody rest with
        | none =>
          rw [scanTags_cons_fail hmt] at hm
          exact ih rest (by simp at hl; omega) nm hm
        | some trip =>
          obtain ⟨b, inner, r⟩ := trip
          have hlr := matchTagBody_length hmt
          rw [scanTags_cons_match hmt] at hm
          rcases List.mem_cons.mp hm with heq | hmem
          · cases b
            · simp only [Bool.false_eq_true, if_false, MTag.op.injEq] at heq
              obtain ⟨isCl, l1, hcore⟩ := matchTagBody_core_cases hmt
              exact heq ▸ nameOK_openTagName_of_core hcore
            · simp at heq
          · exact ih r (by simp at hl; omega) nm hmem
      · rw [scanTags_cons_not_bracket hbr] at hm
        exact ih rest (by simp at hl; omega) nm hm

theorem nameOK_tagOpens {l : List Char} {nm : TagName} (h : nm ∈ tagOpens l) :
    nameOK nm = true := by
  unfold tagOpens at h
  obtain ⟨t, ht, hf⟩ := List.mem_filterMap.mp h
  cases t with
  | op x =>
    have hx : x = nm := by simpa using hf
    subst hx
    exact nameOK_mem_scanTags l.length l le_rfl x ht
  | cl x => simp at hf

end TRead

-- ===== THEOREMS: page finalization balance =====
namespace TRead

theorem trackLine_blank {st : List TagName} {l : Line} (h : isBlankLine l = true) :
    trackLine st l = st := by
  unfold trackLine tagOpens tagCloses
  rw [scanTags_blank h]
  simp [applyCloses]

theorem trackFrom_blanks : ∀ {ls : List Line}, (∀ l ∈ ls, isBlankLine l = true) →
    ∀ st, trackFrom st ls = st := by
  intro ls
  induction ls with
  | nil => intro _ st; rfl
  | cons l ls ih =>
    intro h st
    rw [trackFrom_cons, trackLine_blank (h l (List.mem_cons_self l ls))]
    exact ih (fun x hx => h x (List.mem_cons_of_mem l hx)) st

theorem trackLine_nil_openStr {c : List TagName} (hc : ∀ n ∈ c, nameOK n = true) :
    trackLine [] (open_tags_string c) = c := by
  unfold trackLine
  have h1 : open_tags_string c = open_tags_string c ++ [] := by simp
  rw [h1, tagOpens_openStr_append c [] hc, tagCloses_openStr_append c [] hc]
  simp [tagOpens, tagCloses, scanTags, scanTagsAux_nil, applyCloses]

theorem track_open_tags_cons_openStr (c : List TagName) (ls : List Line)
    (hc : ∀ n ∈ c, nameOK n = true) :
    track_open_tags (open_tags_string c :: ls) = trackFrom c ls := by
  unfold track_open_tags
  rw [trackFrom_cons, trackLine_nil_openStr hc]

theorem trackLine_openStr {st c : List TagName} {x : Line}
    (hc : ∀ n ∈ c, nameOK n = true) :
    trackLine st (open_tags_string c ++ x) = trackLine (st ++ c) x := by
  unfold trackLine
  rw [tagOpens_openStr_append c x hc, tagCloses_openStr_append c x hc, ← List.append_assoc]

theorem trackLine_closeStr {st : List TagName} {x : Line} {ts : List TagName}
    (hx : scanClean x = true) (hts : ∀ n ∈ ts, nameOK n = true) :
    trackLine st (x ++ close_open_tags ts) = applyCloses (trackLine st x) ts.reverse := by
  unfold trackLine
  rw [tagOpens_append_closeStr x ts hx hts, tagCloses_append_closeStr x ts hx hts,
    applyCloses_append_cs]

theorem mapFirstNonblank_cons (f : Line → Line) (l : Line) (ls : List Line) :
    mapFirstNonblank f (l :: ls) =
      if isBlankLine l then l :: mapFirstNonblank f ls else f l :: ls := rfl

theorem mapLastNonblank_cons (f : Line → Line) (l : Line) (ls : List Line) :
    mapLastNonblank f (l :: ls) =
      if !isBlankLine l && ls.all isBlankLine then f l :: ls
      else l :: mapLastNonblank f ls := rfl

theorem trackFrom_mapLast_closeStr : ∀ (ls : List Line) (st ts : List TagName),
    (∀ l ∈ ls, scanClean l = true) → (∀ n ∈ ts, nameOK n = true) →
    ls.all isBlankLine = false →
    trackFrom st (mapLastNonblank (fun l => l ++ close_open_tags ts) ls) =
      applyCloses (trackFrom st ls) ts.reverse := by
  intro ls
  induction ls with
  | nil => intro st ts _ _ hnb; simp at hnb
  | cons l ls ih =>
    intro st ts hcl hts hnb
    rw [mapLastNonblank_cons]
    by_cases htgt : (!isBlankLine l && ls.all isBlankLine) = true
    · rw [if_pos htgt]
      obtain ⟨hlnb, hblanks⟩ := by simpa using htgt
      rw [trackFrom_cons,
        trackLine_closeStr (hcl l (List.mem_cons_self l ls)) hts,
        trackFrom_blanks hblanks, trackFrom_cons, trackFrom_blanks hblanks]
    · rw [if_neg htgt, trackFrom_cons, trackFrom_cons]
      have hnb2 : ls.all isBlankLine = false := by
        by_cases hlb : isBlankLine l = true
        · simp only [List.all_cons, hlb, Bool.true_and] at hnb
          exact hnb
        · have hlb' : isBlankLine l = false := by simpa using hlb
          by_contra hcon
          rw [Bool.not_eq_false] at hcon
          exact htgt (by simp [hlb', hcon])
      exact ih (trackLine st l) ts (fun x hx => hcl x (List.mem_cons_of_mem l hx)) hts hnb2

theorem mapFirstNonblank_all_blank {f : Line → Line} : ∀ {ls : List Line},
    ls.all isBlankLine = true → mapFirstNonblank f ls = ls := by
  intro ls
  induction ls with
  | nil => intro _; rfl
  | cons l ls ih =>
    intro h
    obtain ⟨h1, h2⟩ := by simpa using h
    rw [mapFirstNonblank_cons, if_pos h1, ih (List.all_eq_true.mpr h2)]

theorem mapLastNonblank_all_blank {f : Line → Line} : ∀ {ls : List Line},
    ls.all isBlankLine = true → mapLastNonblank f ls = ls := by
  intro ls
  induction ls with
  | nil => intro _; rfl
  | cons l ls ih =>
    intro h
    obtain ⟨h1, h2⟩ := by simpa using h
    rw [mapLastNonblank_cons, if_neg (by simp [h1]), ih (List.all_eq_true.mpr h2)]

theorem mapFirstNonblank_scanClean {c : List TagName} (hc : ∀ n ∈ c, nameOK n = true) :
    ∀ {ls : List Line}, (∀ l ∈ ls, scanClean l = true) →
    ∀ l' ∈ mapFirstNonblank (fun l => open_tags_string c ++ l) ls, scanClean l' = true := by
  intro ls
  induction ls with
  | nil => intro _ l' h'; simp [mapFirstNonblank] at h'
  | cons l ls ih =>
    intro hcl l' h'
    rw [mapFirstNonblank_cons] at h'
    by_cases hb : isBlankLine l = true
    · rw [if_pos hb] at h'
      rcases List.mem_cons.mp h' with rfl | hm
      · exact hcl l' (List.mem_cons_self l' ls)
      · exact ih (fun x hx => hcl x (List.mem_cons_of_mem l hx)) l' hm
    · rw [if_neg hb] at h'
      rcases List.mem_cons.mp h' with rfl | hm
      · exact scanClean_openStr_append c l hc (hcl l (List.mem_cons_self l ls))
      · exact hcl l' (List.mem_cons_of_mem l hm)

theorem mapFirstNonblank_all_blank_eq {f : Line → Line}
    (hf : ∀ l, isBlankLine l = false → isBlankLine (f l) = false) :
    ∀ {ls : List Line}, (mapFirstNonblank f ls).all isBlankLine = ls.all isBlankLine := by
  intro ls
  induction ls with
  | nil => rfl
  | cons l ls ih =>
    rw [mapFirstNonblank_cons]
    by_cases hb : isBlankLine l = true
    · rw [if_pos hb]
      simp [hb, ih]
    · rw [if_neg hb]
      have hb' : isBlankLine l = false := by simpa using hb
      simp [hf l hb', hb']

theorem isBlankLine_append_false {a l : List Char} (h : isBlankLine l = false) :
    isBlankLine (a ++ l) = false := by
  simp only [isBlankLine, List.all_append, Bool.and_eq_false_iff]
  right
  exact h

theorem nameOK_trackFrom {s : List TagName} {ls : List Line}
    (hs : ∀ n ∈ s, nameOK n = true) :
    ∀ n ∈ trackFrom s ls, nameOK n = true := by
  intro n hn
  rcases mem_trackFrom ls s n hn with hmem | ⟨l, _, hmem⟩
  · exact hs n hmem
  · exact nameOK_tagOpens hmem

end TRead

namespace TRead

theorem finalize_track_core (content : List Line) (c : List TagName)
    (hcl : ∀ l ∈ content, scanClean l = true) (hc : ∀ n ∈ c, nameOK n = true) :
    trackFrom [] (finalize_page_markup content c) = [] ∧
      (content.all isBlankLine = false →
        trackFrom c (finalize_page_markup content c) = []) := by
  by_cases hcn : content = []
  · subst hcn
    exact ⟨rfl, fun h => by simp at h⟩
  · have key : ∀ c1 : List Line, (∀ l ∈ c1, scanClean l = true) →
        c1.all isBlankLine = content.all isBlankLine →
        trackFrom []
          (if trackFrom c c1 = [] then c1
           else mapLastNonblank (fun l => l ++ close_open_tags (trackFrom c c1)) c1) = [] ∧
        (content.all isBlankLine = false →
          trackFrom c
            (if trackFrom c c1 = [] then c1
             else mapLastNonblank (fun l => l ++ close_open_tags (trackFrom c c1)) c1) = []) := by
      intro c1 hc1cl hc1b
      obtain ⟨cx, hcx⟩ := trackFrom_append_exists c1 c []
      rw [List.append_nil] at hcx
      by_cases hS : trackFrom c c1 = []
      · rw [if_pos hS]
        refine ⟨?_, fun _ => hS⟩
        rw [hS] at hcx
        exact (List.append_eq_nil.mp hcx.symm).2
      · rw [if_neg hS]
        by_cases hblank : content.all isBlankLine = true
        · have hb1 : c1.all isBlankLine = true := by rw [hc1b]; exact hblank
          have hb1' : ∀ l ∈ c1, isBlankLine l = true := List.all_eq_true.mp hb1
          rw [mapLastNonblank_all_blank hb1]
          exact ⟨trackFrom_blanks hb1' [], fun hfalse => absurd hblank (by simp [hfalse])⟩
        · have hb1 : c1.all isBlankLine = false := by rw [hc1b]; simpa using hblank
          have hSok : ∀ n ∈ trackFrom c c1, nameOK n = true := nameOK_trackFrom hc
          constructor
          · rw [trackFrom_mapLast_closeStr c1 [] (trackFrom c c1) hc1cl hSok hb1, hcx,
              List.reverse_append, applyCloses_append_cs, applyCloses_self_reverse,
              applyCloses_nil_stack]
          · intro _
            rw [trackFrom_mapLast_closeStr c1 c (trackFrom c c1) hc1cl hSok hb1]
            exact applyCloses_self_reverse _
    have hexp : finalize_page_markup content c =
        (if trackFrom c (if c = [] then content
            else mapFirstNonblank (fun l => open_tags_string c ++ l) content) = []
         then (if c = [] then content
            else mapFirstNonblank (fun l => open_tags_string c ++ l) content)
         else mapLastNonblank (fun l => l ++ close_open_tags (trackFrom c
              (if c = [] then content
               else mapFirstNonblank (fun l => open_tags_string c ++ l) content)))
            (if c = [] then content
             else mapFirstNonblank (fun l => open_tags_string c ++ l) content)) := by
      simp only [finalize_page_markup, if_neg hcn]
      rw [track_open_tags_cons_openStr _ _ hc]
    rw [hexp]
    apply key
    · intro l hl
      by_cases hcn2 : c = []
      · rw [if_pos hcn2] at hl
        exact hcl l hl
      · rw [if_neg hcn2] at hl
        exact mapFirstNonblank_scanClean hc hcl l hl
    · by_cases hcn2 : c = []
      · rw [if_pos hcn2]
      · rw [if_neg hcn2]
        exact mapFirstNonblank_all_blank_eq fun l hl => isBlankLine_append_false hl

theorem finalize_balanced (content : List Line) (c : List TagName)
    (hcl : ∀ l ∈ content, scanClean l = true) (hc : ∀ n ∈ c, nameOK n = true) :
    track_open_tags (finalize_page_markup content c) = [] :=
  (finalize_track_core content c hcl hc).1

theorem finalize_carry_empty (content : List Line) (c : List TagName)
    (hcl : ∀ l ∈ content, scanClean l = true) (hc : ∀ n ∈ c, nameOK n = true)
    (hnb : content.all isBlankLine = false) :
    track_open_tags (open_tags_string c :: finalize_page_markup content c) = [] := by
  rw [track_open_tags_cons_openStr _ _ hc]
  exact (finalize_track_core content c hcl hc).2 hnb

end TRead

-- ===== THEOREMS: pagination loop =====
namespace TRead

theorem find_desc_some : ∀ (m n : Nat) (p : Nat → Bool) (j : Nat),
    (((List.range m).map fun k => n - 1 - k).find? p = some j) → m ≤ n →
    p j = true ∧ n - m ≤ j ∧ j ≤ n - 1 ∧ ∀ x, j < x → x ≤ n - 1 → p x = false := by
  intro m
  induction m with
  | zero => intro n p j h _; simp at h
  | succ m ih =>
    intro n p j h hm
    rw [List.range_succ_eq_map, List.map_cons, List.map_map] at h
    rw [List.find?_cons] at h
    split at h
    · rename_i hp
      obtain rfl : n - 1 = j := by simpa using h
      refine ⟨hp, by omega, le_rfl, ?_⟩
      intro x hx1 hx2
      omega
    · rename_i hp
      have hmap : (List.range m).map ((fun k => n - 1 - k) ∘ (· + 1)) =
          (List.range m).map fun k => (n - 1) - 1 - k := by
        apply List.map_congr_left
        intro k _
        simp only [Function.comp]
        omega
      rw [hmap] at h
      obtain ⟨h1, h2, h3, h4⟩ := ih (n - 1) p j h (by omega)
      refine ⟨h1, by omega, by omega, ?_⟩
      intro x hx1 hx2
      by_cases hxe : x = n - 1
      · subst hxe
        simpa using hp
      · exact h4 x hx1 (by omega)

theorem find_desc_none : ∀ (m n : Nat) (p : Nat → Bool),
    (((List.range m).map fun k => n - 1 - k).find? p = none) → m ≤ n →
    ∀ x, n - m ≤ x → x ≤ n - 1 → 0 < n → p x = false := by
  intro m
  induction m with
  | zero => intro n p _ _ x hx1 hx2 hn; omega
  | succ m ih =>
    intro n p h hm x hx1 hx2 hn
    rw [List.range_succ_eq_map, List.map_cons, List.map_map] at h
    rw [List.find?_cons] at h
    split at h
    · simp at h
    · rename_i hp
      have hmap : (List.range m).map ((fun k => n - 1 - k) ∘ (· + 1)) =
          (List.range m).map fun k => (n - 1) - 1 - k := by
        apply List.map_congr_left
        intro k _
        simp only [Function.comp]
        omega
      rw [hmap] at h
      by_cases hxe : x = n - 1
      · subst hxe
        simpa using hp
      · by_cases hm0 : m = 0
        · omega
        · exact ih (n - 1) p h (by omega) x (by omega) (by omega) (by omega)

theorem findBlank_some_spec {taken : List Line} {j : Nat} (h : findBlank taken = some j) :
    (taken.getD j []).isEmpty = true ∧ taken.length - 5 < j ∧ 0 < j ∧ j < taken.length ∧
      ∀ x, j < x → x < taken.length → (taken.getD x []).isEmpty = false := by
  simp only [findBlank] at h
  have hm : taken.length - 1 - (taken.length - 5) ≤ taken.length := by omega
  have hn2 : 1 < taken.length := by
    by_contra hn1
    have hm0 : taken.length - 1 - (taken.length - 5) = 0 := by omega
    rw [hm0] at h
    simp at h
  obtain ⟨h1, h2, h3, h4⟩ := find_desc_some _ _ _ _ h hm
  refine ⟨h1, by omega, by omega, by omega, ?_⟩
  intro x hx1 hx2
  exact h4 x hx1 (by omega)

theorem findBlank_none_spec {taken : List Line} (h : findBlank taken = none) :
    ∀ x, taken.length - 5 < x → x < taken.length →
      (taken.getD x []).isEmpty = false := by
  unfold findBlank at h
  intro x hx1 hx2
  have hm : taken.length - 1 - (taken.length - 5) ≤ taken.length := by omega
  exact find_desc_none _ _ _ h hm x (by omega) (by omega) (by omega)

theorem pagesLoopAux_zero (vh : Int) (rest : List Line) (carry : List TagName) :
    pagesLoopAux vh 0 rest carry = none := rfl

theorem pagesLoopAux_nil (vh : Int) (fuel : Nat) (carry : List TagName) :
    pagesLoopAux vh (fuel + 1) [] carry = some [] := by
  simp [pagesLoopAux]

theorem pagesLoopAux_split (vh : Int) (fuel : Nat) (rest : List Line) (carry : List TagName)
    (j : Nat) (hrest : rest ≠ [])
    (hcond : ((rest.take vh.toNat).length : Int) = vh ∧ rest.drop vh.toNat ≠ [])
    (hfb : findBlank (rest.take vh.toNat) = some j) :
    pagesLoopAux vh (fuel + 1) rest carry =
      (pagesLoopAux vh fuel ((rest.take vh.toNat).drop (j + 1) ++ rest.drop vh.toNat)
          (track_open_tags (open_tags_string carry ::
            finalize_page_markup ((rest.take vh.toNat).take (j + 1)) carry))).map
        fun ps =>
          padPage (finalize_page_markup ((rest.take vh.toNat).take (j + 1)) carry) vh :: ps := by
  simp only [pagesLoopAux]
  rw [if_neg hrest, if_pos hcond, hfb]

theorem pagesLoopAux_hard (vh : Int) (fuel : Nat) (rest : List Line) (carry : List TagName)
    (hrest : rest ≠ [])
    (hcond : ((rest.take vh.toNat).length : Int) = vh ∧ rest.drop vh.toNat ≠ [])
    (hfb : findBlank (rest.take vh.toNat) = none) :
    pagesLoopAux vh (fuel + 1) rest carry =
      (pagesLoopAux vh fuel (rest.drop vh.toNat)
          (track_open_tags (open_tags_string carry :: rest.take vh.toNat))).map
        fun ps => finalize_page_markup (rest.take vh.toNat) carry :: ps := by
  simp only [pagesLoopAux]
  rw [if_neg hrest, if_pos hcond, hfb]

theorem pagesLoopAux_spin (vh : Int) (fuel : Nat) (rest : List Line) (carry : List TagName)
    (hrest : rest ≠ [])
    (hcond : ¬(((rest.take vh.toNat).length : Int) = vh ∧ rest.drop vh.toNat ≠ []))
    (htk : rest.take vh.toNat = []) :
    pagesLoopAux vh (fuel + 1) rest carry = pagesLoopAux vh fuel rest carry := by
  simp only [pagesLoopAux]
  rw [if_neg hrest, if_neg hcond, if_pos htk]

theorem pagesLoopAux_last (vh : Int) (fuel : Nat) (rest : List Line) (carry : List TagName)
    (hrest : rest ≠ [])
    (hcond : ¬(((rest.take vh.toNat).length : Int) = vh ∧ rest.drop vh.toNat ≠ []))
    (htk : rest.take vh.toNat ≠ []) :
    pagesLoopAux vh (fuel + 1) rest carry =
      some [padPage (finalize_page_markup (rest.take vh.toNat) carry) vh] := by
  simp only [pagesLoopAux]
  rw [if_neg hrest, if_neg hcond, if_neg htk]

theorem pagesLoopAux_mono : ∀ (fuel fuel' : Nat) (vh : Int) (rest : List Line)
    (carry : List TagName) (ps : List Page),
    pagesLoopAux vh fuel rest carry = some ps → fuel ≤ fuel' →
    pagesLoopAux vh fuel' rest carry = some ps := by
  intro fuel
  induction fuel with
  | zero => intro fuel' vh rest carry ps h _; rw [pagesLoopAux_zero] at h; exact absurd h (by simp)
  | succ fuel ih =>
    intro fuel' vh rest carry ps h hle
    obtain ⟨f', rfl⟩ : ∃ f', fuel' = f' + 1 := ⟨fuel' - 1, by omega⟩
    by_cases hrest : rest = []
    · subst hrest
      rw [pagesLoopAux_nil] at h ⊢
      exact h
    by_cases hcond : ((rest.take vh.toNat).length : Int) = vh ∧ rest.drop vh.toNat ≠ []
    · cases hfb : findBlank (rest.take vh.toNat) with
      | some j =>
        rw [pagesLoopAux_split vh fuel rest carry j hrest hcond hfb] at h
        rw [pagesLoopAux_split vh f' rest carry j hrest hcond hfb]
        obtain ⟨ps', hps', rfl⟩ := Option.map_eq_some'.mp h
        rw [ih f' _ _ _ _ hps' (by omega)]
        rfl
      | none =>
        rw [pagesLoopAux_hard vh fuel rest carry hrest hcond hfb] at h
        rw [pagesLoopAux_hard vh f' rest carry hrest hcond hfb]
        obtain ⟨ps', hps', rfl⟩ := Option.map_eq_some'.mp h
        rw [ih f' _ _ _ _ hps' (by omega)]
        rfl
    · by_cases htk : rest.take vh.toNat = []
      · rw [pagesLoopAux_spin vh fuel rest carry hrest hcond htk] at h
        rw [pagesLoopAux_spin vh f' rest carry hrest hcond htk]
        exact ih f' _ _ _ _ h (by omega)
      · rw [pagesLoopAux_last vh fuel rest carry hrest hcond htk] at h
        rw [pagesLoopAux_last vh f' rest carry hrest hcond htk]
        exact h

theorem pagesLoopAux_some_of_lt : ∀ (fuel : Nat) (vh : Int) (rest : List Line)
    (carry : List TagName), 1 ≤ vh → rest.length < fuel →
    ∃ ps, pagesLoopAux vh fuel rest carry = some ps := by
  intro fuel
  induction fuel with
  | zero => intro vh rest carry _ h; omega
  | succ fuel ih =>
    intro vh rest carry hvh hlen
    by_cases hrest : rest = []
    · subst hrest
      exact ⟨[], pagesLoopAux_nil vh fuel carry⟩
    have hrp : 0 < rest.length := List.length_pos.mpr hrest
    have htn : 0 < vh.toNat := by omega
    have htake : (rest.take vh.toNat).length = min vh.toNat rest.length :=
      List.length_take _ _
    have hdrop : (rest.drop vh.toNat).length = rest.length - vh.toNat :=
      List.length_drop _ _
    by_cases hcond : ((rest.take vh.toNat).length : Int) = vh ∧ rest.drop vh.toNat ≠ []
    · have htkl : (rest.take vh.toNat).length = vh.toNat := by omega
      cases hfb : findBlank (rest.take vh.toNat) with
      | some j =>
        obtain ⟨-, -, hj0, hjlt, -⟩ := findBlank_some_spec hfb
        have hlen2 : ((rest.take vh.toNat).drop (j + 1) ++ rest.drop vh.toNat).length < fuel := by
          rw [List.length_append, List.length_drop, hdrop, htkl]
          omega
        obtain ⟨ps, hps⟩ := ih vh ((rest.take vh.toNat).drop (j + 1) ++ rest.drop vh.toNat)
          (track_open_tags (open_tags_string carry ::
            finalize_page_markup ((rest.take vh.toNat).take (j + 1)) carry)) hvh hlen2
        refine ⟨padPage (finalize_page_markup ((rest.take vh.toNat).take (j + 1)) carry) vh ::
          ps, ?_⟩
        rw [pagesLoopAux_split vh fuel rest carry j hrest hcond hfb, hps]
        rfl
      | none =>
        have hlen2 : (rest.drop vh.toNat).length < fuel := by
          rw [hdrop]
          omega
        obtain ⟨ps, hps⟩ := ih vh (rest.drop vh.toNat)
          (track_open_tags (open_tags_string carry :: rest.take vh.toNat)) hvh hlen2
        refine ⟨finalize_page_markup (rest.take vh.toNat) carry :: ps, ?_⟩
        rw [pagesLoopAux_hard vh fuel rest carry hrest hcond hfb, hps]
        rfl
    · have htk : ¬(rest.take vh.toNat = []) := by
        intro hc
        have hc2 := congrArg List.length hc
        rw [htake] at hc2
        simp only [List.length_nil] at hc2
        omega
      exact ⟨_, pagesLoopAux_last vh fuel rest carry hrest hcond htk⟩

end TRead

namespace TRead

theorem trackFrom_append (s : List TagName) (a b : List Line) :
    trackFrom s (a ++ b) = trackFrom (trackFrom s a) b := by
  unfold trackFrom
  exact List.foldl_append _ _ _ _

theorem padPage_balanced {l : List Line} {vh : Int} (h : track_open_tags l = []) :
    track_open_tags (padPage l vh) = [] := by
  unfold track_open_tags at h ⊢
  unfold padPage
  rw [trackFrom_append, h]
  exact trackFrom_blanks (fun x hx => by rw [List.eq_of_mem_replicate hx]; rfl) []

theorem mapFirstNonblank_length (f : Line → Line) : ∀ ls : List Line,
    (mapFirstNonblank f ls).length = ls.length := by
  intro ls
  induction ls with
  | nil => rfl
  | cons l ls ih =>
    rw [mapFirstNonblank_cons]
    split
    · simp [ih]
    · simp

theorem mapLastNonblank_length (f : Line → Line) : ∀ ls : List Line,
    (mapLastNonblank f ls).length = ls.length := by
  intro ls
  induction ls with
  | nil => rfl
  | cons l ls ih =>
    rw [mapLastNonblank_cons]
    split
    · simp
    · simp [ih]

theorem finalize_length (content : List Line) (c : List TagName) :
    (finalize_page_markup content c).length = content.length := by
  simp only [finalize_page_markup]
  split
  · rfl
  · split <;> split <;>
      simp [mapFirstNonblank_length, mapLastNonblank_length]

theorem padPage_length {l : List Line} {vh : Int} (h : (l.length : Int) ≤ vh) :
    ((padPage l vh).length : Int) = vh := by
  unfold padPage
  rw [List.length_append, List.length_replicate]
  omega

theorem pagesLoop_none_of_nonpos : ∀ (fuel : Nat) (vh : Int) (rest : List Line),
    vh ≤ 0 → rest ≠ [] → pagesLoopAux vh fuel rest [] = none := by
  intro fuel
  induction fuel with
  | zero => intro vh rest _ _; rfl
  | succ fuel ih =>
    intro vh rest hvh hrest
    have htn : vh.toNat = 0 := by omega
    have htk : rest.take vh.toNat = [] := by rw [htn]; rfl
    have hdr : rest.drop vh.toNat = rest := by rw [htn]; rfl
    by_cases hvz : vh = 0
    · subst hvz
      have hcond : ((rest.take (0 : Int).toNat).length : Int) = 0 ∧
          rest.drop (0 : Int).toNat ≠ [] := by
        constructor
        · rw [htk]; rfl
        · rw [hdr]; exact hrest
      have hfb : findBlank (rest.take (0 : Int).toNat) = none := by rw [htk]; rfl
      rw [pagesLoopAux_hard 0 fuel rest [] hrest hcond hfb, hdr]
      have hcarry : track_open_tags (open_tags_string ([] : List TagName) ::
          rest.take (0 : Int).toNat) = ([] : List TagName) := by rw [htk]; rfl
      rw [hcarry, ih 0 rest le_rfl hrest]
      rfl
    · have hcond : ¬(((rest.take vh.toNat).length : Int) = vh ∧ rest.drop vh.toNat ≠ []) := by
        rintro ⟨h1, -⟩
        rw [htk] at h1
        simp only [List.length_nil] at h1
        omega
      rw [pagesLoopAux_spin vh fuel rest [] hrest hcond htk]
      exact ih vh rest hvh hrest

theorem pagesLoop_balanced : ∀ (fuel : Nat) (vh : Int) (rest : List Line)
    (carry : List TagName) (ps : List Page),
    pagesLoopAux vh fuel rest carry = some ps →
    (∀ l ∈ rest, scanClean l = true) → (∀ n ∈ carry, nameOK n = true) →
    ∀ p ∈ ps, track_open_tags p = [] := by
  intro fuel
  induction fuel with
  | zero =>
    intro vh rest carry ps h _ _
    rw [pagesLoopAux_zero] at h
    exact absurd h (by simp)
  | succ fuel ih =>
    intro vh rest carry ps h hcl hca
    by_cases hrest : rest = []
    · subst hrest
      rw [pagesLoopAux_nil] at h
      obtain rfl : ([] : List Page) = ps := by simpa using h
      intro p hp
      simp at hp
    by_cases hcond : ((rest.take vh.toNat).length : Int) = vh ∧ rest.drop vh.toNat ≠ []
    · cases hfb : findBlank (rest.take vh.toNat) with
      | some j =>
        rw [pagesLoopAux_split vh fuel rest carry j hrest hcond hfb] at h
        obtain ⟨ps', hps', rfl⟩ := Option.map_eq_some'.mp h
        have hclt : ∀ l ∈ (rest.take vh.toNat).take (j + 1), scanClean l = true := fun l hl =>
          hcl l (List.take_subset _ _ (List.take_subset _ _ hl))
        have hclr : ∀ l ∈ (rest.take vh.toNat).drop (j + 1) ++ rest.drop vh.toNat,
            scanClean l = true := by
          intro l hl
          rcases List.mem_append.mp hl with hl | hl
          · exact hcl l (List.take_subset _ _ (List.drop_subset _ _ hl))
          · exact hcl l (List.drop_subset _ _ hl)
        have hca2 : ∀ n ∈ track_open_tags (open_tags_string carry ::
            finalize_page_markup ((rest.take vh.toNat).take (j + 1)) carry),
            nameOK n = true := by
          rw [track_open_tags_cons_openStr _ _ hca]
          exact nameOK_trackFrom hca
        intro p hp
        rcases List.mem_cons.mp hp with rfl | hp
        · exact padPage_balanced (finalize_balanced _ carry hclt hca)
        · exact ih vh _ _ ps' hps' hclr hca2 p hp
      | none =>
        rw [pagesLoopAux_hard vh fuel rest carry hrest hcond hfb] at h
        obtain ⟨ps', hps', rfl⟩ := Option.map_eq_some'.mp h
        have hclt : ∀ l ∈ rest.take vh.toNat, scanClean l = true := fun l hl =>
          hcl l (List.take_subset _ _ hl)
        have hclr : ∀ l ∈ rest.drop vh.toNat, scanClean l = true := fun l hl =>
          hcl l (List.drop_subset _ _ hl)
        have hca2 : ∀ n ∈ track_open_tags (open_tags_string carry :: rest.take vh.toNat),
            nameOK n = true := by
          rw [track_open_tags_cons_openStr _ _ hca]
          exact nameOK_trackFrom hca
        intro p hp
        rcases List.mem_cons.mp hp with rfl | hp
        · exact finalize_balanced _ carry hclt hca
        · exact ih vh _ _ ps' hps' hclr hca2 p hp
    · by_cases htk : rest.take vh.toNat = []
      · rw [pagesLoopAux_spin vh fuel rest carry hrest hcond htk] at h
        exact ih vh _ _ ps h hcl hca
      · rw [pagesLoopAux_last vh fuel rest carry hrest hcond htk] at h
        obtain rfl : [padPage (finalize_page_markup (rest.take vh.toNat) carry) vh] = ps := by
          simpa using h
        intro p hp
        obtain rfl := List.mem_singleton.mp hp
        exact padPage_balanced (finalize_balanced _ carry (fun l hl =>
          hcl l (List.take_subset _ _ hl)) hca)

theorem pagesLoop_heights : ∀ (fuel : Nat) (vh : Int) (rest : List Line)
    (carry : List TagName) (ps : List Page), 1 ≤ vh →
    pagesLoopAux vh fuel rest carry = some ps →
    ∀ p ∈ ps, (p.length : Int) = vh := by
  intro fuel
  induction fuel with
  | zero =>
    intro vh rest carry ps _ h
    rw [pagesLoopAux_zero] at h
    exact absurd h (by simp)
  | succ fuel ih =>
    intro vh rest carry ps hvh h
    by_cases hrest : rest = []
    · subst hrest
      rw [pagesLoopAux_nil] at h
      obtain rfl : ([] : List Page) = ps := by simpa using h
      intro p hp
      simp at hp
    by_cases hcond : ((rest.take vh.toNat).length : Int) = vh ∧ rest.drop vh.toNat ≠ []
    · have htkl : (rest.take vh.toNat).length = vh.toNat := by
        have := hcond.1
        omega
      cases hfb : findBlank (rest.take vh.toNat) with
      | some j =>
        rw [pagesLoopAux_split vh fuel rest carry j hrest hcond hfb] at h
        obtain ⟨ps', hps', rfl⟩ := Option.map_eq_some'.mp h
        obtain ⟨-, -, -, hjlt, -⟩ := findBlank_some_spec hfb
        intro p hp
        rcases List.mem_cons.mp hp with rfl | hp
        · apply padPage_length
          rw [finalize_length, List.length_take]
          omega
        · exact ih vh _ _ ps' hvh hps' p hp
      | none =>
        rw [pagesLoopAux_hard vh fuel rest carry hrest hcond hfb] at h
        obtain ⟨ps', hps', rfl⟩ := Option.map_eq_some'.mp h
        intro p hp
        rcases List.mem_cons.mp hp with rfl | hp
        · rw [finalize_length]
          exact hcond.1
        · exact ih vh _ _ ps' hvh hps' p hp
    · by_cases htk : rest.take vh.toNat = []
      · rw [pagesLoopAux_spin vh fuel rest carry hrest hcond htk] at h
        exact ih vh _ _ ps hvh h
      · rw [pagesLoopAux_last vh fuel rest carry hrest hcond htk] at h
        obtain rfl : [padPage (finalize_page_markup (rest.take vh.toNat) carry) vh] = ps := by
          simpa using h
        intro p hp
        obtain rfl := List.mem_singleton.mp hp
        apply padPage_length
        rw [finalize_length]
        have := List.length_take_le vh.toNat rest
        omega

end TRead

-- ===== CLAIM THEOREMS: pagination =====
namespace TRead

/-- C10: `create_pages(lines, visible_height)` terminates if and only if
`lines` is empty or `visible_height >= 1`.  The fuelled loop `pagesLoopAux`
returns `some` for some fuel exactly under that condition: with
`visible_height >= 1` fuel `lines.length + 1` always suffices (each outer
iteration consumes at least one pending line), while for
`visible_height <= 0` and non-empty input every fuel is exhausted (the loop
consumes no input). -/
theorem c10_terminates_iff (lines : List Line) (vh : Int) :
    (∃ fuel, (pagesLoopAux vh fuel lines []).isSome = true) ↔ lines = [] ∨ 1 ≤ vh := by
  constructor
  · rintro ⟨fuel, hf⟩
    by_contra hc
    push_neg at hc
    obtain ⟨h1, h2⟩ := hc
    rw [pagesLoop_none_of_nonpos fuel vh lines (by omega) h1] at hf
    simp at hf
  · rintro (rfl | hvh)
    · exact ⟨1, by rw [pagesLoopAux_nil]; rfl⟩
    · obtain ⟨ps, hps⟩ := pagesLoopAux_some_of_lt (lines.length + 1) vh lines [] hvh (by omega)
      exact ⟨lines.length + 1, by rw [hps]; rfl⟩

/-- C2: for a non-empty input and `visible_height >= 1`, every page returned
by `create_pages` has exactly `visible_height` lines (short pages are padded
with empty lines). -/
theorem c2_fixed_height (lines : List Line) (vh : Int) (_hne : lines ≠ []) (hvh : 1 ≤ vh) :
    ∀ p ∈ create_pages lines vh, (p.length : Int) = vh := by
  intro p hp
  obtain ⟨ps, hps⟩ := pagesLoopAux_some_of_lt (lines.length + 1) vh lines [] hvh (by omega)
  unfold create_pages at hp
  rw [hps, Option.getD_some] at hp
  exact pagesLoop_heights (lines.length + 1) vh lines [] ps hvh hps p hp

theorem c2_fixed_height_witness :
    (([['a']] : List Line) ≠ [] ∧ 1 ≤ (2 : Int)) ∧
    ∀ p ∈ create_pages [['a']] 2, (p.length : Int) = 2 :=
  ⟨⟨by decide, by decide⟩, c2_fixed_height [['a']] 2 (by decide) (by decide)⟩

/-- C1 counterexample: the claim reads each page with a strictly
left-to-right marker scan (push opens, pop the matching most recent open for
each close, a close with no match is a no-op).  For the single input line
`"[/b][b]"` and `visible_height = 1`, `create_pages` returns that line
unchanged as its only page, but the left-to-right scan of that page ends
with the non-empty stack `["b"]`: the program balances pages only under its
own two-phase per-line accounting (`track_open_tags` processes all opens of
a line before all closes), not under the claimed interleaved scan. -/
theorem c1_counterexample :
    create_pages [[ '[', '/', 'b', ']', '[', 'b', ']' ]] 1 =
      [[[ '[', '/', 'b', ']', '[', 'b', ']' ]]] ∧
    pageScanStack [[ '[', '/', 'b', ']', '[', 'b', ']' ]] = [[ 'b' ]] := by
  exact ⟨by decide, by decide⟩

/-- C1 (amended): under the program's own per-line two-phase tag accounting
(`track_open_tags`: all opening tags of a line are pushed before its closing
tags are removed), every page returned by `create_pages` is balanced — the
stack is empty after the page's last line — for every `visible_height >= 1`
and every input in which each line's markup parses cleanly (`scanClean`: no
dangling `[name ...` fragment that a later concatenation could re-parse). -/
theorem c1_pages_balanced (lines : List Line) (vh : Int) (hvh : 1 ≤ vh)
    (hcl : ∀ l ∈ lines, scanClean l = true) :
    ∀ p ∈ create_pages lines vh, track_open_tags p = [] := by
  intro p hp
  obtain ⟨ps, hps⟩ := pagesLoopAux_some_of_lt (lines.length + 1) vh lines [] hvh (by omega)
  unfold create_pages at hp
  rw [hps, Option.getD_some] at hp
  exact pagesLoop_balanced (lines.length + 1) vh lines [] ps hps hcl
    (by intro n hn; simp at hn) p hp

theorem c1_pages_balanced_witness :
    (1 ≤ (1 : Int) ∧ ∀ l ∈ [[ '[', 'b', ']', 'x' ], [ 'y' ]], scanClean l = true) ∧
    ∀ p ∈ create_pages [[ '[', 'b', ']', 'x' ], [ 'y' ]] 1, track_open_tags p = [] :=
  ⟨⟨by decide, by decide⟩,
    c1_pages_balanced [[ '[', 'b', ']', 'x' ], [ 'y' ]] 1 (by decide) (by decide)⟩

/-- C5 counterexample: the carried-over open-tag set is not always empty.
With input lines `"[b]x"`, `"y"` and `visible_height = 1` the first page is
emitted by the hard-cut path, whose carry is computed from the raw buffer
(not the balanced page), so the finalization of the second page receives the
non-empty carry `["b"]`; the second returned page is `"[b]y[/b][/b]"` —
cross-page span continuation does occur. -/
theorem c5_counterexample :
    pagesLoopCarries 1 3 [[ '[', 'b', ']', 'x' ], [ 'y' ]] [] = [[], [[ 'b' ]]] ∧
    create_pages [[ '[', 'b', ']', 'x' ], [ 'y' ]] 1 =
      [[[ '[', 'b', ']', 'x', '[', '/', 'b', ']' ]],
       [[ '[', 'b', ']', 'y', '[', '/', 'b', ']', '[', '/', 'b', ']' ]]] := by
  exact ⟨by decide, by decide⟩

/-- C5 (amended): the emptiness argument is sound exactly for the
paragraph-split path, which computes the carry from the already-balanced
(finalized) page content: for any cleanly-parsing page content with at least
one non-blank line and any well-formed incoming carry, the next-page carry
`track_open_tags([open_tags_string(c)] + finalized_page)` is empty.  (The
hard-cut path instead computes the carry from the raw buffer and can pass a
non-empty carry on, as the counterexample shows.) -/
theorem c5_split_carry_empty (content : List Line) (c : List TagName)
    (hcl : ∀ l ∈ content, scanClean l = true) (hc : ∀ n ∈ c, nameOK n = true)
    (hnb : content.all isBlankLine = false) :
    track_open_tags (open_tags_string c :: finalize_page_markup content c) = [] :=
  finalize_carry_empty content c hcl hc hnb

theorem c5_split_carry_empty_witness :
    ((∀ l ∈ [[ 'a' ], ([] : Line)], scanClean l = true) ∧
      (∀ n ∈ [[ 'b' ]], nameOK n = true) ∧
      ([[ 'a' ], ([] : Line)].all isBlankLine = false)) ∧
    track_open_tags (open_tags_string [[ 'b' ]] ::
      finalize_page_markup [[ 'a' ], ([] : Line)] [[ 'b' ]]) = [] :=
  ⟨⟨by decide, by decide, by decide⟩,
    c5_split_carry_empty [[ 'a' ], ([] : Line)] [[ 'b' ]] (by decide) (by decide) (by decide)⟩

/-- C4 counterexample: the lookback window is not the last 5 buffer lines.
For `visible_height = 6` and seven input lines with a single blank at buffer
index 1 — which is among the last 5 lines (indices 1..5) of the 6-line
buffer — the search `range(5, max(0, 1), -1)` only examines indices 5,4,3,2,
finds no blank, and the page is emitted as a hard cut instead of being split
at the blank line. -/
theorem c4_counterexample :
    (([['a'], [], ['c'], ['d'], ['e'], ['f']] : List Line).getD 1 []).isEmpty = true ∧
    create_pages [['a'], [], ['c'], ['d'], ['e'], ['f'], ['g']] 6 =
      [[['a'], [], ['c'], ['d'], ['e'], ['f']],
       [['g'], [], [], [], [], []]] := by
  exact ⟨by decide, by decide⟩

/-- C4 (amended): when the buffer is full (`len == visible_height`) and
input remains, the examined window is `range(n-1, max(0, n-5), -1)` — at
most the last 4 buffer lines, and never index 0.  Either the newest blank
line at an index `j` with `n-5 < j < n` (and `j > 0`) is found, everything
after it is pushed back and the page is cut after line `j`; or every line in
that window is non-blank and the full buffer is emitted as a hard cut. -/
theorem c4_break_window (vh : Int) (fuel : Nat) (rest : List Line) (carry : List TagName)
    (hrest : rest ≠ [])
    (hcond : ((rest.take vh.toNat).length : Int) = vh ∧ rest.drop vh.toNat ≠ []) :
    (∃ j, findBlank (rest.take vh.toNat) = some j ∧
        ((rest.take vh.toNat).getD j []).isEmpty = true ∧
        (rest.take vh.toNat).length - 5 < j ∧ 0 < j ∧ j < (rest.take vh.toNat).length ∧
        (∀ x, j < x → x < (rest.take vh.toNat).length →
          ((rest.take vh.toNat).getD x []).isEmpty = false) ∧
        pagesLoopAux vh (fuel + 1) rest carry =
          (pagesLoopAux vh fuel ((rest.take vh.toNat).drop (j + 1) ++ rest.drop vh.toNat)
              (track_open_tags (open_tags_string carry ::
                finalize_page_markup ((rest.take vh.toNat).take (j + 1)) carry))).map
            (fun ps =>
              padPage (finalize_page_markup ((rest.take vh.toNat).take (j + 1)) carry) vh
                :: ps)) ∨
    (findBlank (rest.take vh.toNat) = none ∧
        (∀ x, (rest.take vh.toNat).length - 5 < x → x < (rest.take vh.toNat).length →
          ((rest.take vh.toNat).getD x []).isEmpty = false) ∧
        pagesLoopAux vh (fuel + 1) rest carry =
          (pagesLoopAux vh fuel (rest.drop vh.toNat)
              (track_open_tags (open_tags_string carry :: rest.take vh.toNat))).map
            (fun ps => finalize_page_markup (rest.take vh.toNat) carry :: ps)) := by
  rcases Option.eq_none_or_eq_some (findBlank (rest.take vh.toNat)) with hfb | ⟨j, hfb⟩
  · exact Or.inr ⟨hfb, findBlank_none_spec hfb,
      pagesLoopAux_hard vh fuel rest carry hrest hcond hfb⟩
  · obtain ⟨h1, h2, h3, h4, h5⟩ := findBlank_some_spec hfb
    exact Or.inl ⟨j, hfb, h1, h2, h3, h4, h5,
      pagesLoopAux_split vh fuel rest carry j hrest hcond hfb⟩

theorem c4_break_window_witness :
    (([['a'], [], ['b']] : List Line) ≠ [] ∧
      ((([['a'], [], ['b']] : List Line).take (2 : Int).toNat).length : Int) = 2 ∧
      ([['a'], [], ['b']] : List Line).drop (2 : Int).toNat ≠ []) ∧
    ((∃ j, findBlank (([['a'], [], ['b']] : List Line).take (2 : Int).toNat) = some j ∧
        ((([['a'], [], ['b']] : List Line).take (2 : Int).toNat).getD j []).isEmpty = true ∧
        (([['a'], [], ['b']] : List Line).take (2 : Int).toNat).length - 5 < j ∧ 0 < j ∧
        j < (([['a'], [], ['b']] : List Line).take (2 : Int).toNat).length ∧
        (∀ x, j < x → x < (([['a'], [], ['b']] : List Line).take (2 : Int).toNat).length →
          ((([['a'], [], ['b']] : List Line).take (2 : Int).toNat).getD x []).isEmpty = false) ∧
        pagesLoopAux 2 (2 + 1) [['a'], [], ['b']] [] =
          (pagesLoopAux 2 2
              ((([['a'], [], ['b']] : List Line).take (2 : Int).toNat).drop (j + 1) ++
                ([['a'], [], ['b']] : List Line).drop (2 : Int).toNat)
              (track_open_tags (open_tags_string [] ::
                finalize_page_markup
                  ((([['a'], [], ['b']] : List Line).take (2 : Int).toNat).take (j + 1)) []))).map
            (fun ps =>
              padPage
                (finalize_page_markup
                  ((([['a'], [], ['b']] : List Line).take (2 : Int).toNat).take (j + 1)) []) 2
                :: ps)) ∨
      (findBlank (([['a'], [], ['b']] : List Line).take (2 : Int).toNat) = none ∧
        (∀ x, (([['a'], [], ['b']] : List Line).take (2 : Int).toNat).length - 5 < x →
          x < (([['a'], [], ['b']] : List Line).take (2 : Int).toNat).length →
          ((([['a'], [], ['b']] : List Line).take (2 : Int).toNat).getD x []).isEmpty = false) ∧
        pagesLoopAux 2 (2 + 1) [['a'], [], ['b']] [] =
          (pagesLoopAux 2 2 (([['a'], [], ['b']] : List Line).drop (2 : Int).toNat)
              (track_open_tags (open_tags_string [] ::
                ([['a'], [], ['b']] : List Line).take (2 : Int).toNat))).map
            (fun ps =>
              finalize_page_markup (([['a'], [], ['b']] : List Line).take (2 : Int).toNat) []
                :: ps))) :=
  ⟨⟨by decide, by decide, by decide⟩,
    c4_break_window 2 2 [['a'], [], ['b']] [] (by decide) ⟨by decide, by decide⟩⟩

/-- C9: for an empty chapter content the pipeline yields exactly one page of
entirely blank lines, not an empty page sequence: `wrap_text_to_width`
returns the single preserved blank line `[""]` (for any width — the wrapper
is never consulted for a blank line), and `create_pages([""], vh)` returns
the single page `[""] * vh` for every `visible_height >= 1`. -/
theorem c9_empty_content (vh w : Int) (hvh : 1 ≤ vh) :
    wrap_text_to_width [] w = some [[]] ∧
    create_pages [[]] vh = [List.replicate vh.toNat []] := by
  constructor
  · rfl
  · unfold create_pages
    have hrest : ([[]] : List Line) ≠ [] := by simp
    obtain ⟨k, hk⟩ : ∃ k, vh.toNat = k + 1 := ⟨vh.toNat - 1, by omega⟩
    have htake : ([[]] : List Line).take vh.toNat = [[]] := by
      rw [hk]
      simp
    have hdrop : ([[]] : List Line).drop vh.toNat = [] := by
      rw [hk]
      simp
    have hcond : ¬(((([[]] : List Line).take vh.toNat).length : Int) = vh ∧
        ([[]] : List Line).drop vh.toNat ≠ []) := by
      rintro ⟨-, h2⟩
      exact h2 hdrop
    have htk : ([[]] : List Line).take vh.toNat ≠ [] := by
      rw [htake]
      simp
    have hlen : ([[]] : List Line).length + 1 = 1 + 1 := rfl
    rw [hlen, pagesLoopAux_last vh 1 [[]] [] hrest hcond htk, htake, Option.getD_some]
    have hfin : finalize_page_markup [[]] ([] : List TagName) = [[]] := rfl
    rw [hfin]
    unfold padPage
    have h2 : (vh - (([[]] : List Line).length : Int)).toNat = k := by
      simp only [List.length_cons, List.length_nil]
      omega
    rw [h2, hk]
    simp [List.replicate_succ]

theorem c9_empty_content_witness :
    1 ≤ (2 : Int) ∧
    (wrap_text_to_width [] 7 = some [[]] ∧
      create_pages [[]] 2 = [List.replicate (2 : Int).toNat []]) :=
  ⟨by decide, c9_empty_content 2 7 (by decide)⟩

end TRead

-- ===== THEOREMS: double pages and navigation =====
namespace TRead

theorem doublePairsAux_length (cw : Int) (sep : List Char) : ∀ l : List Page,
    (doublePairsAux cw sep l).length = (l.length + 1) / 2
  | [] => by simp [doublePairsAux]
  | [l] => by simp [doublePairsAux]
  | l :: r :: rest => by
    simp only [doublePairsAux, List.length_cons, doublePairsAux_length cw sep rest]
    omega

theorem doublePairsAux_last_odd (cw : Int) (sep : List Char) : ∀ l : List Page,
    l.length % 2 = 1 →
    ∃ p, l.getLast? = some p ∧
      (doublePairsAux cw sep l).getLast? =
        some (combineColumns cw sep p (List.replicate p.length []))
  | [] => by intro h; simp at h
  | [p] => by
    intro _
    exact ⟨p, rfl, rfl⟩
  | l :: r :: rest => by
    intro h
    have h2 : rest.length % 2 = 1 := by
      simp only [List.length_cons] at h
      omega
    obtain ⟨p, hp, hd⟩ := doublePairsAux_last_odd cw sep rest h2
    have hrne : rest ≠ [] := by
      intro hc
      rw [hc] at h2
      simp at h2
    obtain ⟨r0, rest', rfl⟩ : ∃ r0 rest', rest = r0 :: rest' := by
      cases rest with
      | nil => exact absurd rfl hrne
      | cons a b => exact ⟨a, b, rfl⟩
    refine ⟨p, ?_, ?_⟩
    · rw [List.getLast?_cons_cons, List.getLast?_cons_cons]
      exact hp
    · have hne2 : doublePairsAux cw sep (r0 :: rest') ≠ [] := by
        intro hc
        have hlen := congrArg List.length hc
        rw [doublePairsAux_length cw sep (r0 :: rest')] at hlen
        simp only [List.length_cons, List.length_nil] at hlen
        omega
      obtain ⟨d0, ds, hds⟩ : ∃ d0 ds, doublePairsAux cw sep (r0 :: rest') = d0 :: ds := by
        cases hd2 : doublePairsAux cw sep (r0 :: rest') with
        | nil => exact absurd hd2 hne2
        | cons a b => exact ⟨a, b, rfl⟩
      show (combineColumns cw sep l r :: doublePairsAux cw sep (r0 :: rest')).getLast? = _
      rw [hds, List.getLast?_cons_cons]
      rw [hds] at hd
      exact hd

theorem combineColumns_blank_right (cw : Int) (sep : List Char) (p : Page) :
    ∀ line ∈ combineColumns cw sep p (List.replicate p.length []),
      ∃ left, line = left ++ sep ++ List.replicate cw.toNat ' ' := by
  intro line hline
  simp only [combineColumns] at hline
  rw [List.mem_map] at hline
  obtain ⟨⟨a, b⟩, hmem, heq⟩ := hline
  have hb : b = [] := by
    have hzip := List.of_mem_zip hmem
    have hbr := hzip.2
    rcases List.mem_append.mp hbr with hbr2 | hbr2
    · exact List.eq_of_mem_replicate hbr2
    · exact List.eq_of_mem_replicate hbr2
  subst hb
  refine ⟨format_line_for_column a cw, ?_⟩
  rw [← heq]
  rfl

theorem create_double_eq (pages : List Page) (W : Int) (sep : List Char) (hne : pages ≠ []) :
    create_double_pages_with_width pages W sep =
      doublePairsAux ((W - (sep.length : Int)).fdiv 2) sep pages := by
  cases pages with
  | nil => exact absurd rfl hne
  | cons a l => rfl

/-- C6: for a non-empty list of pages, `create_double_pages_with_width`
returns exactly `ceil(len(pages)/2) = (len(pages)+1)/2` double pages, and
when the page count is odd the final double page's right column — everything
after the separator on each of its lines — consists solely of spaces
(`column_width = (total_width - len(sep)) // 2` of them, Python floor
division). -/
theorem c6_double_pages (pages : List Page) (W : Int) (sep : List Char) (hne : pages ≠ []) :
    (create_double_pages_with_width pages W sep).length = (pages.length + 1) / 2 ∧
    (pages.length % 2 = 1 →
      ∀ line ∈ (create_double_pages_with_width pages W sep).getLast?.getD [],
        ∃ left, line = left ++ sep ++
          List.replicate ((W - (sep.length : Int)).fdiv 2).toNat ' ') := by
  rw [create_double_eq pages W sep hne]
  constructor
  · exact doublePairsAux_length _ sep pages
  · intro hodd line hline
    obtain ⟨p, hp, hd⟩ :=
      doublePairsAux_last_odd ((W - (sep.length : Int)).fdiv 2) sep pages hodd
    rw [hd, Option.getD_some] at hline
    exact combineColumns_blank_right _ sep p line hline

theorem c6_double_pages_witness :
    (([[['a']]] : List Page) ≠ []) ∧
    ((create_double_pages_with_width [[['a']]] 5 [' ']).length =
        (([[['a']]] : List Page).length + 1) / 2 ∧
      (([[['a']]] : List Page).length % 2 = 1 →
        ∀ line ∈ (create_double_pages_with_width [[['a']]] 5 [' ']).getLast?.getD [],
          ∃ left, line = left ++ [' '] ++
            List.replicate ((5 - (([' '] : List Char).length : Int)).fdiv 2).toNat ' ')) :=
  ⟨by decide, c6_double_pages [[['a']]] 5 [' '] (by decide)⟩

/-- C7 counterexample: the round trip fails on the last page of the last
chapter.  For the one-chapter book `["a\nb"]` laid out at width 10 and
height 1, chapter 0 has the two pages `["a"], ["b"]`; starting from
`page_index = 1`, `next_page` finds no next page and `next_chapter` has no
next chapter (the state is unchanged), but `prev_page` then moves back to
page 0 — the original `page_index = 1` is not restored. -/
theorem c7_counterexample :
    (getPagesD [[ 'a', '\n', 'b' ]] ⟨10, 1, false, [' ']⟩ 0).length = 2 ∧
    navNext [[ 'a', '\n', 'b' ]] ⟨10, 1, false, [' ']⟩ ⟨0, 1⟩ = ⟨0, 1⟩ ∧
    navPrev [[ 'a', '\n', 'b' ]] ⟨10, 1, false, [' ']⟩
      (navNext [[ 'a', '\n', 'b' ]] ⟨10, 1, false, [' ']⟩ ⟨0, 1⟩) = ⟨0, 0⟩ := by
  exact ⟨by decide, by decide, by decide⟩

/-- C7 (amended): with LayoutParams unchanged, `next_page; prev_page`
restores the original `page_index` for every in-range starting position in a
chapter with more than one page, except on the last page of the last
chapter: there `next_page` (falling through `next_chapter`) leaves the state
unchanged while `prev_page` still steps back.  Mid-chapter the round trip is
`p -> p+1 -> p`; at the last page of a non-final chapter it is
`(c, N-1) -> (c+1, 0) -> (c, N-1)` because `prev_page` at page 0 jumps to
the last page of the recomputed previous chapter. -/
theorem c7_next_prev_roundtrip (book : List (List Char)) (P : Layout) (ch p : Int)
    (hch : 0 ≤ ch ∧ ch < (book.length : Int))
    (hp : 0 ≤ p ∧ p < ((getPagesD book P ch).length : Int))
    (hN : 1 < (getPagesD book P ch).length)
    (hlast : ¬(p = ((getPagesD book P ch).length : Int) - 1 ∧
      ch = (book.length : Int) - 1)) :
    navPrev book P (navNext book P ⟨ch, p⟩) = ⟨ch, p⟩ := by
  have hclamp : clampPage p (getPagesD book P ch).length = p := by
    unfold clampPage
    omega
  by_cases hplt : p < ((getPagesD book P ch).length : Int) - 1
  · have hnext : navNext book P ⟨ch, p⟩ = ⟨ch, p + 1⟩ := by
      simp only [navNext]
      rw [hclamp, if_pos hplt]
    rw [hnext]
    have hclamp2 : clampPage (p + 1) (getPagesD book P ch).length = p + 1 := by
      unfold clampPage
      omega
    simp only [navPrev]
    rw [hclamp2, if_pos (by omega : (0 : Int) < p + 1)]
    simp only [NavState.mk.injEq]
    constructor
    · trivial
    · omega
  · have hpe : p = ((getPagesD book P ch).length : Int) - 1 := by omega
    have hchne : ch ≠ (book.length : Int) - 1 := fun hc => hlast ⟨hpe, hc⟩
    have hchlt : ch < (book.length : Int) - 1 := by omega
    have hnext : navNext book P ⟨ch, p⟩ = ⟨ch + 1, 0⟩ := by
      simp only [navNext]
      rw [hclamp, if_neg hplt, if_pos hchlt]
    rw [hnext]
    simp only [navPrev]
    have hclamp0 : clampPage 0 (getPagesD book P (ch + 1)).length = 0 := by
      unfold clampPage
      omega
    rw [hclamp0, if_neg (by omega : ¬(0 : Int) < 0), if_pos (by omega : (0 : Int) < ch + 1)]
    have hch1 : ch + 1 - 1 = ch := by ring
    rw [hch1]
    have hie : (getPagesD book P ch).isEmpty = false := by
      cases hg : getPagesD book P ch with
      | nil => rw [hg] at hN; simp at hN
      | cons a l => rfl
    rw [hie]
    simp only [NavState.mk.injEq, Bool.false_eq_true, if_false]
    constructor
    · trivial
    · omega

theorem c7_next_prev_roundtrip_witness :
    ((0 ≤ (0 : Int) ∧ (0 : Int) < (([[ 'a', '\n', 'b' ], [ 'c' ]] : List (List Char)).length : Int)) ∧
      (0 ≤ (1 : Int) ∧
        (1 : Int) < ((getPagesD [[ 'a', '\n', 'b' ], [ 'c' ]] ⟨10, 1, false, [' ']⟩ 0).length : Int)) ∧
      1 < (getPagesD [[ 'a', '\n', 'b' ], [ 'c' ]] ⟨10, 1, false, [' ']⟩ 0).length ∧
      ¬((1 : Int) = ((getPagesD [[ 'a', '\n', 'b' ], [ 'c' ]] ⟨10, 1, false, [' ']⟩ 0).length : Int) - 1 ∧
        (0 : Int) = (([[ 'a', '\n', 'b' ], [ 'c' ]] : List (List Char)).length : Int) - 1)) ∧
    navPrev [[ 'a', '\n', 'b' ], [ 'c' ]] ⟨10, 1, false, [' ']⟩
      (navNext [[ 'a', '\n', 'b' ], [ 'c' ]] ⟨10, 1, false, [' ']⟩ ⟨0, 1⟩) = ⟨0, 1⟩ :=
  ⟨⟨⟨by decide, by decide⟩, ⟨by decide, by decide⟩, by decide, by decide⟩,
    c7_next_prev_roundtrip [[ 'a', '\n', 'b' ], [ 'c' ]] ⟨10, 1, false, [' ']⟩ 0 1
      ⟨by decide, by decide⟩ ⟨by decide, by decide⟩ (by decide) (by decide)⟩

end TRead

-- ===== THEOREMS: text wrapping (C3) =====
namespace TRead

theorem alnum_isNameChar {c : Char} (h : (c.isAlpha || c.isDigit) = true) :
    isNameChar c = true := by
  unfold isNameChar
  rw [h]
  rfl

theorem alnum_not_space {c : Char} (h : (c.isAlpha || c.isDigit) = true) :
    isSpaceChar c = false :=
  isNameChar_not_space (alnum_isNameChar h)

theorem alnum_ne {c : Char} (h : (c.isAlpha || c.isDigit) = true) (d : Char)
    (hd : (d.isAlpha || d.isDigit) = false) : c ≠ d := by
  rintro rfl
  rw [h] at hd
  exact absurd hd (by simp)

theorem isAlnumToken_unpack {t : List Char} (h : isAlnumToken t = true) :
    t ≠ [] ∧ ∀ c ∈ t, (c.isAlpha || c.isDigit) = true := by
  unfold isAlnumToken at h
  obtain ⟨h1, h2⟩ : (!t.isEmpty) = true ∧ t.all (fun c => c.isAlpha || c.isDigit) = true := by
    simpa using h
  constructor
  · intro hc
    subst hc
    simp at h1
  · exact fun c hc => List.all_eq_true.mp h2 c hc

theorem expandTabsAux_alnum : ∀ (t : List Char) (col : Nat),
    (∀ c ∈ t, (c.isAlpha || c.isDigit) = true) → expandTabsAux col t = t := by
  intro t
  induction t with
  | nil => intro _ _; rfl
  | cons c rest ih =>
    intro col h
    have hc := h c (List.mem_cons_self c rest)
    have ht : ¬(c = '\t') := alnum_ne hc '\t' (by decide)
    have hn : ¬((c = '\n' || c = '\r') = true) := by
      intro hnr
      rcases (by simpa using hnr : c = '\n' ∨ c = '\r') with rfl | rfl
      · exact absurd hc (by decide)
      · exact absurd hc (by decide)
    simp only [expandTabsAux]
    rw [if_neg ht, if_neg hn, ih (col + 1) (fun x hx => h x (List.mem_cons_of_mem c hx))]

theorem mungeWhitespace_alnum {t : List Char}
    (h : ∀ c ∈ t, (c.isAlpha || c.isDigit) = true) : mungeWhitespace t = t := by
  unfold mungeWhitespace
  rw [expandTabsAux_alnum t 0 h]
  have h2 : ∀ c ∈ t, (if isSpaceChar c then ' ' else c) = id c := by
    intro c hc
    rw [alnum_not_space (h c hc)]
    rfl
  rw [List.map_congr_left h2, List.map_id]

theorem wordScan_alnum : ∀ (rs consRev beforeRev : List Char),
    (∀ c ∈ rs, (c.isAlpha || c.isDigit) = true) →
    wordScan beforeRev consRev rs = (rs.reverse ++ consRev, []) := by
  intro rs
  induction rs with
  | nil =>
    intro consRev beforeRev _
    simp [wordScan]
  | cons c rs ih =>
    intro consRev beforeRev h
    have hc := h c (List.mem_cons_self c rs)
    have hdash : ¬(c = '-') := alnum_ne hc '-' (by decide)
    have hbe : (c == '-') = false := by
      simp only [beq_eq_false_iff_ne]
      exact hdash
    have hemd : emdashLookahead (c :: rs) = false := by
      simp only [emdashLookahead]
      rw [List.takeWhile_cons, if_neg (by rw [hbe]; exact Bool.false_ne_true)]
      rfl
    have h1 : ¬((decide (c = '-') && hyphenLookbehind (consRev ++ beforeRev) &&
        hyphenLookahead rs) = true) := by
      rw [decide_eq_false hdash]
      simp
    have h2 : ¬(isSpaceChar c = true) := by
      rw [alnum_not_space hc]
      exact Bool.false_ne_true
    have htail : ∀ x ∈ rs, (x.isAlpha || x.isDigit) = true :=
      fun x hx => h x (List.mem_cons_of_mem c hx)
    cases consRev with
    | nil =>
      simp only [wordScan]
      rw [if_neg h1, if_neg h2,
        if_neg (by rw [hemd, Bool.and_false]; exact Bool.false_ne_true),
        ih (c :: []) beforeRev htail]
      simp
    | cons d ds =>
      simp only [wordScan]
      rw [if_neg h1, if_neg h2,
        if_neg (by rw [hemd, Bool.and_false]; exact Bool.false_ne_true),
        ih (c :: d :: ds) beforeRev htail]
      simp

theorem wordsepAux_nil (b : List Char) (f : Nat) : wordsepAux b f [] = [] := by
  cases f <;> rfl

theorem splitChunks_alnum {t : List Char} (hne : t ≠ [])
    (h : ∀ c ∈ t, (c.isAlpha || c.isDigit) = true) : splitChunks t = [t] := by
  obtain ⟨c, rs, rfl⟩ : ∃ c rs, t = c :: rs := by
    cases t with
    | nil => exact absurd rfl hne
    | cons a b => exact ⟨a, b, rfl⟩
  have hc := h c (List.mem_cons_self c rs)
  have hsp : ¬(isSpaceChar c = true) := by
    rw [alnum_not_space hc]
    exact Bool.false_ne_true
  unfold splitChunks
  simp only [List.length_cons, wordsepAux]
  rw [if_neg hsp,
    wordScan_alnum rs [c] [] (fun x hx => h x (List.mem_cons_of_mem c hx))]
  simp [wordsepAux_nil]

end TRead

namespace TRead

theorem chunksOfWidthAux_congr : ∀ (f1 f2 w : Nat) (t : List Char), 0 < w →
    t.length < f1 → t.length < f2 →
    chunksOfWidthAux w f1 t = chunksOfWidthAux w f2 t := by
  intro f1
  induction f1 with
  | zero => intro f2 w t _ h1 _; omega
  | succ f1 ih =>
    intro f2 w t hw h1 h2
    obtain ⟨g2, rfl⟩ : ∃ g2, f2 = g2 + 1 := ⟨f2 - 1, by omega⟩
    simp only [chunksOfWidthAux]
    by_cases hlen : t.length ≤ w
    · rw [if_pos hlen, if_pos hlen]
    · rw [if_neg hlen, if_neg hlen,
        ih g2 w (t.drop w) hw (by rw [List.length_drop]; omega)
          (by rw [List.length_drop]; omega)]

theorem chunksOfWidth_step {w : Nat} {t : List Char} (hw : 0 < w) (h : w < t.length) :
    chunksOfWidth w t = t.take w :: chunksOfWidth w (t.drop w) := by
  unfold chunksOfWidth
  have h1 : ¬(t.length ≤ w) := by omega
  simp only [chunksOfWidthAux]
  rw [if_neg h1]
  congr 1
  exact chunksOfWidthAux_congr t.length ((t.drop w).length + 1) w (t.drop w) hw
    (by rw [List.length_drop]; omega) (by rw [List.length_drop]; omega)

theorem chunksOfWidth_small {w : Nat} {t : List Char} (h : t.length ≤ w) :
    chunksOfWidth w t = [t] := by
  unfold chunksOfWidth
  simp only [chunksOfWidthAux]
  rw [if_pos h]

theorem chunksOfWidth_ne_nil (w : Nat) (t : List Char) : chunksOfWidth w t ≠ [] := by
  unfold chunksOfWidth
  simp only [chunksOfWidthAux]
  by_cases h : t.length ≤ w
  · rw [if_pos h]
    simp
  · rw [if_neg h]
    simp

theorem findIdx_none_of_all {p : Char → Bool} : ∀ l : List Char,
    (∀ x ∈ l, p x = false) → l.findIdx? p = none := by
  intro l
  induction l with
  | nil => intro _; rfl
  | cons a l ih =>
    intro h
    rw [List.findIdx?_cons, h a (List.mem_cons_self a l)]
    simp [ih fun x hx => h x (List.mem_cons_of_mem a hx)]

theorem rfindHyphen_none {pre : List Char} (h : ∀ x ∈ pre, ¬(x = '-')) :
    rfindHyphen pre = none := by
  unfold rfindHyphen
  rw [findIdx_none_of_all pre.reverse (fun x hx => by
    simp only [beq_eq_false_iff_ne]
    exact h x (List.mem_reverse.mp hx))]

theorem handleLongWord_alnum {w : Int} {t : List Char} (hw : 1 ≤ w)
    (hlen : w < (t.length : Int)) (h : ∀ c ∈ t, (c.isAlpha || c.isDigit) = true) :
    handleLongWord w 0 t = (t.take w.toNat, t.drop w.toNat) := by
  simp only [handleLongWord]
  rw [if_neg (by omega : ¬ w < 1)]
  have hsl : w - 0 = w := by ring
  rw [hsl, if_pos (by omega : (t.length : Int) > w),
    rfindHyphen_none (fun x hx => alnum_ne (h x (List.take_subset _ _ hx)) '-' (by decide))]

theorem isAllWs_alnum {t : List Char} (hne : t ≠ [])
    (h : ∀ c ∈ t, (c.isAlpha || c.isDigit) = true) : isAllWs t = false := by
  obtain ⟨c, rs, rfl⟩ : ∃ c rs, t = c :: rs := by
    cases t with
    | nil => exact absurd rfl hne
    | cons a b => exact ⟨a, b, rfl⟩
  unfold isAllWs
  rw [List.all_cons, alnum_not_space (h c (List.mem_cons_self c rs))]
  rfl

end TRead

namespace TRead

theorem wrapLoop_step_small {w : Int} {t : List Char} (fuel : Nat) (acc : List (List Char))
    (hne : t ≠ []) (h : ∀ c ∈ t, (c.isAlpha || c.isDigit) = true)
    (hlen : (t.length : Int) ≤ w) :
    wrapChunksLoop w (fuel + 1) [t] acc = wrapChunksLoop w fuel [] (t :: acc) := by
  have hall : isAllWs t = false := isAllWs_alnum hne h
  have hle : 0 + (t.length : Int) ≤ w := by omega
  simp only [wrapChunksLoop]
  rw [hall]
  simp only [Bool.false_and, Bool.false_eq_true, if_false]
  simp only [greedyFill]
  rw [if_pos hle]
  simp [hall]

theorem wrapLoop_step_long {w : Int} {t : List Char} (fuel : Nat) (acc : List (List Char))
    (hne : t ≠ []) (h : ∀ c ∈ t, (c.isAlpha || c.isDigit) = true)
    (hw : 1 ≤ w) (hlen : w < (t.length : Int)) :
    wrapChunksLoop w (fuel + 1) [t] acc =
      wrapChunksLoop w fuel [t.drop w.toNat] (t.take w.toNat :: acc) := by
  have hall : isAllWs t = false := isAllWs_alnum hne h
  have hlp : 0 < t.length := List.length_pos.mpr hne
  have hgt : ¬(0 + (t.length : Int) ≤ w) := by omega
  have htne : t.take w.toNat ≠ [] := by
    apply List.length_pos.mp
    rw [List.length_take]
    omega
  have hallt : isAllWs (t.take w.toNat) = false :=
    isAllWs_alnum htne (fun c hc => h c (List.take_subset _ _ hc))
  simp only [wrapChunksLoop]
  rw [hall]
  simp only [Bool.false_and, Bool.false_eq_true, if_false]
  simp only [greedyFill]
  rw [if_neg hgt]
  have hgt2 : (t.length : Int) > w := by omega
  simp [hgt2, handleLongWord_alnum hw hlen h, hallt]

theorem wrapChunksLoop_alnum : ∀ (fuel : Nat) (t : List Char) (w : Int)
    (acc : List (List Char)),
    1 ≤ w → t ≠ [] → (∀ c ∈ t, (c.isAlpha || c.isDigit) = true) →
    t.length + 1 < fuel →
    wrapChunksLoop w fuel [t] acc = some (acc.reverse ++ chunksOfWidth w.toNat t) := by
  intro fuel
  induction fuel with
  | zero => intro t w acc _ _ _ hf; omega
  | succ fuel ih =>
    intro t w acc hw hne h hf
    by_cases hlen : (t.length : Int) ≤ w
    · rw [wrapLoop_step_small fuel acc hne h hlen]
      obtain ⟨g, rfl⟩ : ∃ g, fuel = g + 1 := ⟨fuel - 1, by omega⟩
      rw [show wrapChunksLoop w (g + 1) [] (t :: acc) = some (t :: acc).reverse from rfl,
        chunksOfWidth_small (by omega : t.length ≤ w.toNat)]
      simp
    · have hlt : w < (t.length : Int) := by omega
      rw [wrapLoop_step_long fuel acc hne h hw hlt]
      have hdne : t.drop w.toNat ≠ [] := by
        apply List.length_pos.mp
        rw [List.length_drop]
        omega
      rw [ih (t.drop w.toNat) w (t.take w.toNat :: acc) hw hdne
        (fun c hc => h c (List.drop_subset _ _ hc))
        (by rw [List.length_drop]; omega),
        chunksOfWidth_step (by omega : 0 < w.toNat) (by omega : w.toNat < t.length)]
      simp

end TRead

namespace TRead

theorem textwrap_wrap_alnum (t : List Char) (w : Int)
    (ht : isAlnumToken t = true) (hw : 1 ≤ w) :
    textwrap_wrap t w = some (chunksOfWidth w.toNat t) := by
  obtain ⟨hne, h⟩ := isAlnumToken_unpack ht
  simp only [textwrap_wrap]
  rw [if_neg (by omega : ¬ w ≤ 0), mungeWhitespace_alnum h, splitChunks_alnum hne h]
  have hm : chunksMeasure [t] = t.length + 1 := by
    simp [chunksMeasure]
  rw [hm, wrapChunksLoop_alnum (t.length + 1 + 1) t w [] hw hne h (by omega)]
  simp

theorem splitNl_no_nl : ∀ {t : List Char}, '\n' ∉ t → splitNl t = [t] := by
  intro t
  induction t with
  | nil => intro _; rfl
  | cons c rest ih =>
    intro h
    simp only [splitNl]
    rw [if_neg (fun hc : c = '\n' => h (by rw [hc]; exact List.mem_cons_self _ _)),
      ih (fun hm => h (List.mem_cons_of_mem c hm))]

/-- C3 counterexample: a whitespace-delimited token longer than the width is
not kept whole on its own line.  `textwrap.wrap` is called with its default
`break_long_words=True`, so `wrap_text_to_width("aaa", 2)` returns the token
split across two lines, `["aa", "a"]`. -/
theorem c3_counterexample :
    wrap_text_to_width [ 'a', 'a', 'a' ] 2 = some [[ 'a', 'a' ], [ 'a' ]] := by decide

/-- C3 (amended): an alphanumeric token is wrapped to the consecutive
width-sized chunks of itself (`chunksOfWidth`): for `width >= 1`,
`wrap_text_to_width(token, width)` returns exactly
`ceil(len/width)` lines — `token[0:width], token[width:2*width], ...` — so a
token longer than the width is broken at exact width boundaries
(`break_long_words=True` default), not placed alone on its own line. -/
theorem c3_long_token_chunks (t : List Char) (w : Int)
    (ht : isAlnumToken t = true) (hw : 1 ≤ w) :
    wrap_text_to_width t w = some (chunksOfWidth w.toNat t) := by
  obtain ⟨hne, h⟩ := isAlnumToken_unpack ht
  unfold wrap_text_to_width
  rw [splitNl_no_nl (fun hm => absurd (h '\n' hm) (by decide))]
  simp only [List.foldr_cons, List.foldr_nil]
  rw [show isBlankLine t = false from isAllWs_alnum hne h]
  rw [textwrap_wrap_alnum t w ht hw]
  have hch : (chunksOfWidth w.toNat t).isEmpty = false := by
    cases hc : chunksOfWidth w.toNat t with
    | nil => exact absurd hc (chunksOfWidth_ne_nil _ _)
    | cons a l => rfl
  simp [hch]

theorem c3_long_token_chunks_witness :
    (isAlnumToken [ 'a', 'b', 'c' ] = true ∧ 1 ≤ (2 : Int)) ∧
    wrap_text_to_width [ 'a', 'b', 'c' ] 2 =
      some (chunksOfWidth (2 : Int).toNat [ 'a', 'b', 'c' ]) :=
  ⟨⟨by decide, by decide⟩, c3_long_token_chunks [ 'a', 'b', 'c' ] 2 (by decide) (by decide)⟩

end TRead
